import Mathlib

/-!
# Verification of the openWakeWord-cpp streaming detection pipeline

Shallow embedding of the repository's core data structures and stage loops:

* `processPrediction` — `WakeWordDetector::processPrediction`
  (`src/processors/wake_word_detector.cpp`), the activation/debounce
  state machine run once per keyword-model prediction;
* the embedding-stage and detector-stage sliding-window loops
  (`SpeechEmbeddingProcessor::run`, `WakeWordDetector::run`);
* `melScale` / `computeMelSpectrogram` — `MelSpectrogramModel::computeMelSpectrogram`;
* `RingBuffer` — `include/utils/ring_buffer.h`;
* `TSBuffer` — the `ThreadSafeBuffer` handoff channel
  (`core/thread_safe_buffer.h`), modelled sequentially: the mutex-guarded
  bodies become pure state transformers and the condition-variable wait
  becomes the precondition under which `pull` returns.

Machine `float` scalars are modelled as `ℚ`: every claim below depends on
the scalars only through comparisons and element-wise affine maps, never
through rounding. C++ `int` counters are modelled as `ℤ`, C++ `size_t`
as `ℕ`.
-/

namespace OpenWakeWord

/-! ## Constants (`include/core/types.h`) -/

def SAMPLE_RATE : ℕ := 16000
def CHUNK_SAMPLES : ℕ := 1280
def NUM_MELS : ℕ := 32
def EMBEDDING_WINDOW_SIZE : ℕ := 76
def EMBEDDING_STEP_SIZE : ℕ := 8
def EMBEDDING_FEATURES : ℕ := 96
def WAKEWORD_FEATURES : ℕ := 16

/-! ## Detector activation state machine

`WakeWordDetector::processPrediction` (`src/processors/wake_word_detector.cpp`,
lines 81–109).  The detector holds `activationCount_ : int`, initially `0`.
On a prediction `probability`:
if `probability > threshold` it increments the counter and, when the counter
reaches `triggerLevel`, emits a detection (returned here as the `Bool`
component) and resets the counter to `-refractorySteps`; otherwise it decays
a positive counter by one (clamped at 0) and counts a negative counter up by
one (clamped at 0).  Returns (new counter, whether a detection was emitted).
-/

def processPrediction (threshold : ℚ) (triggerLevel refractorySteps : ℤ)
    (probability : ℚ) (a : ℤ) : ℤ × Bool :=
  if probability > threshold then
    -- activationCount_++
    let a1 := a + 1
    if a1 ≥ triggerLevel then
      -- output detection, enter refractory period
      (-refractorySteps, true)
    else
      (a1, false)
  else
    -- no activation: decay activation count
    if a > 0 then (max 0 (a - 1), false)
    else (min 0 (a + 1), false)

/-- Iterate `processPrediction` over a prediction stream, recording for each
prediction whether a detection event was emitted (the detector's
`activationCount_` starts at the given `a` and is threaded through). -/
def runDetect (thr : ℚ) (tl rs : ℤ) (a : ℤ) : List ℚ → List Bool
  | [] => []
  | p :: ps =>
    (processPrediction thr tl rs p a).2 ::
      runDetect thr tl rs (processPrediction thr tl rs p a).1 ps

/-- The detector's `activationCount_` after consuming a prediction stream. -/
def afterDetect (thr : ℚ) (tl rs : ℤ) (a : ℤ) : List ℚ → ℤ
  | [] => a
  | p :: ps => afterDetect thr tl rs (processPrediction thr tl rs p a).1 ps

/-- The spec's activation state machine (spec §4.5), written from the spec
text: on `p > threshold`, `a ← a + 1` and if `a ≥ triggerLevel` emit and
`a ← -refractorySteps`; on `p ≤ threshold`, a positive `a` becomes
`max 0 (a-1)`, a negative `a` becomes `min 0 (a+1)`, and a zero `a` is
unchanged.  To be compared with `processPrediction`, which is translated
from the source. -/
def specActivationStep (threshold : ℚ) (triggerLevel refractorySteps : ℤ)
    (p : ℚ) (a : ℤ) : ℤ × Bool :=
  if p > threshold then
    let a1 := a + 1
    if a1 ≥ triggerLevel then (-refractorySteps, true) else (a1, false)
  else if a > 0 then (max 0 (a - 1), false)
  else if a < 0 then (min 0 (a + 1), false)
  else (a, false)

/-- Iterate `specActivationStep`, starting from counter `a`. -/
def specRunDetect (thr : ℚ) (tl rs : ℤ) (a : ℤ) : List ℚ → List Bool
  | [] => []
  | p :: ps =>
    (specActivationStep thr tl rs p a).2 ::
      specRunDetect thr tl rs (specActivationStep thr tl rs p a).1 ps

/-! ## Prediction-stream statistics (for the refractory and debouncing bounds)

Ghost quantities over a prediction stream: the number of above-threshold
predictions, and the (above − below) score of a stream and its suffixes.
These appear only in theorem statements; the detector code never computes
them. -/

/-- `+1` for an above-threshold prediction, `-1` for a below-threshold one. -/
def hitVal (thr p : ℚ) : ℤ := if p > thr then 1 else -1

/-- Number of above-threshold predictions in a stream. -/
def hitCount (thr : ℚ) (ps : List ℚ) : ℕ := ps.countP (fun p => decide (p > thr))

/-- Count of above-threshold minus below-threshold predictions of a stream. -/
def suffScore (thr : ℚ) (ps : List ℚ) : ℤ := (ps.map (hitVal thr)).sum

/-- Largest `suffScore` over all suffixes of a stream (the empty suffix,
of score 0, included). -/
def bestSuff (thr : ℚ) : List ℚ → ℤ
  | [] => 0
  | p :: ps => max (suffScore thr (p :: ps)) (bestSuff thr ps)

/-- Left-to-right accumulator computing the best suffix score of the part
of the stream consumed so far (clamped below at 0). -/
def bestAcc (thr : ℚ) : ℤ → List ℚ → ℤ
  | b, [] => b
  | b, p :: ps => bestAcc thr (max 0 (b + hitVal thr p)) ps

/-! ## Sliding-window stage loops

Both the embedding stage and the detector stage run the same inner loop
shape: while the buffer holds at least a full window of scalars, process the
first window and then drop one step's worth of scalars.  `winCnt`/`winRes`
are the ghost quantities "number of loop iterations" and "length of the
residual" as functions of the scalar count alone. -/

/-- Number of iterations of a `while (W ≤ size) size -= S` loop. -/
def winCnt (W S : ℕ) (s : ℕ) : ℕ :=
  if h : 0 < S ∧ 0 < W ∧ W ≤ s then winCnt W S (s - S) + 1 else 0
  termination_by s
  decreasing_by omega

/-- Residual size after a `while (W ≤ size) size -= S` loop. -/
def winRes (W S : ℕ) (s : ℕ) : ℕ :=
  if h : 0 < S ∧ 0 < W ∧ W ≤ s then winRes W S (s - S) else s
  termination_by s
  decreasing_by omega

/-- Inner while-loop of `WakeWordDetector::run`
(`src/processors/wake_word_detector.cpp`, lines 49–78): while the feature
buffer holds at least `WAKEWORD_FEATURES` embeddings, run the keyword model
on the first `WAKEWORD_FEATURES * EMBEDDING_FEATURES` scalars, feed the
resulting probability to `processPrediction`, and remove one embedding
(`EMBEDDING_FEATURES` scalars).  Returns (per-invocation (probability,
detection-emitted) pairs in order, residual buffer, final activation
count). -/
def wakeLoop (model : List ℚ → ℚ) (thr : ℚ) (tl rs : ℤ) (buf : List ℚ) (a : ℤ) :
    List (ℚ × Bool) × List ℚ × ℤ :=
  if h : WAKEWORD_FEATURES ≤ buf.length / EMBEDDING_FEATURES then
    let p := model (buf.take (WAKEWORD_FEATURES * EMBEDDING_FEATURES))
    let s := processPrediction thr tl rs p a
    let r := wakeLoop model thr tl rs (buf.drop EMBEDDING_FEATURES) s.1
    ((p, s.2) :: r.1, r.2)
  else
    ([], buf, a)
  termination_by buf.length
  decreasing_by
    simp only [List.length_drop, WAKEWORD_FEATURES, EMBEDDING_FEATURES] at *
    omega

/-- Outer loop of `WakeWordDetector::run`: pull each batch of embedding
scalars, append it to the feature buffer, and drain with `wakeLoop`. -/
def wakeRun (model : List ℚ → ℚ) (thr : ℚ) (tl rs : ℤ) (batches : List (List ℚ))
    (buf : List ℚ) (a : ℤ) :
    List (ℚ × Bool) × List ℚ × ℤ :=
  match batches with
  | [] => ([], buf, a)
  | b :: bs =>
    let r1 := wakeLoop model thr tl rs (buf ++ b) a
    let r2 := wakeRun model thr tl rs bs r1.2.1 r1.2.2
    (r1.1 ++ r2.1, r2.2)

/-! ## Mel stage

`MelSpectrogramModel::computeMelSpectrogram` (`core/model_wrapper.cpp`,
lines 79–110) and the inner while-loop of `MelSpectrogramProcessor::run`
(`src/processors/mel_spectrogram.cpp`, lines 51–78).  The neural model call
is the opaque parameter `model`; `melCount` is the product of the output
shape, i.e. the output element count. -/

/-- The scaling loop: `result.push_back(melData[i] / 10.0f + 2.0f)` over all
`melCount` output elements ("Scale mels for Google speech embedding
model"). -/
def melScale (melData : List ℚ) : List ℚ :=
  melData.foldl (fun result v => result ++ [v / 10 + 2]) []

/-- `computeMelSpectrogram`: throws `invalid_argument` (modelled `none`)
iff the input sample count differs from `frameSize_`; otherwise runs the
mel model and returns the scaled output.  The source performs no check on
the model output element count. -/
def computeMelSpectrogram (frameSize : ℕ) (model : List ℚ → List ℚ)
    (samples : List ℚ) : Option (List ℚ) :=
  if samples.length ≠ frameSize then none
  else some (melScale (model samples))

/-- Inner while-loop of `MelSpectrogramProcessor::run`: while the buffer
holds a full frame, pop exactly `frameSize` samples, compute the scaled mel
spectrogram and push it downstream as one batch.  A `none` result would
model the fatal `invalid_argument` throw escaping the loop.  (The C++
guard is `frameSize_ ≤ size`; the conjunct `0 < frameSize` only rules out
the degenerate `frameSize = 0` loop, which does not terminate in C++
either.)  Returns (batches pushed downstream in order, residual buffer). -/
def melLoop (frameSize : ℕ) (model : List ℚ → List ℚ) (buf : List ℚ) :
    Option (List (List ℚ) × List ℚ) :=
  if h : 0 < frameSize ∧ frameSize ≤ buf.length then
    match computeMelSpectrogram frameSize model (buf.take frameSize) with
    | none => none
    | some mels =>
      match melLoop frameSize model (buf.drop frameSize) with
      | none => none
      | some r => some (mels :: r.1, r.2)
  else
    some ([], buf)
  termination_by buf.length
  decreasing_by simp only [List.length_drop]; omega

/-! ## Handoff channel (`ThreadSafeBuffer`, `core/thread_safe_buffer.h`)

Modelled sequentially: each mutex-guarded method body becomes a pure state
transformer.  The condition-variable wait in `pull` blocks until
`ready_ || exhausted_`; the theorems below only invoke `pull` on states
with the exhausted flag set, where the wait returns immediately, so the
blocking is irrelevant to them. -/

structure TSBuffer where
  buffer : List ℚ
  ready : Bool
  exhausted : Bool
  deriving DecidableEq

def TSBuffer.init : TSBuffer := ⟨[], false, false⟩

/-- `push(data)`: append the batch, set `ready_`, wake one waiter. -/
def TSBuffer.push (b : TSBuffer) (data : List ℚ) : TSBuffer :=
  ⟨b.buffer ++ data, true, b.exhausted⟩

/-- `pull(maxCount = 0)`: if exhausted and drained, return an empty batch;
otherwise move out the whole buffer (when `maxCount == 0` or
`maxCount ≥ size`) or the first `maxCount` scalars; clear `ready_` unless
exhausted. -/
def TSBuffer.pull (b : TSBuffer) (maxCount : ℕ) : List ℚ × TSBuffer :=
  if b.exhausted = true ∧ b.buffer = [] then ([], b)
  else if maxCount = 0 ∨ b.buffer.length ≤ maxCount then
    (b.buffer, ⟨[], if b.exhausted then b.ready else false, b.exhausted⟩)
  else
    (b.buffer.take maxCount,
      ⟨b.buffer.drop maxCount, if b.exhausted then b.ready else false, b.exhausted⟩)

/-- `setExhausted(exhausted)`: mark end-of-stream, wake all waiters. -/
def TSBuffer.setExhausted (b : TSBuffer) (v : Bool) : TSBuffer :=
  ⟨b.buffer, true, v⟩

/-- `isExhausted()`: the exhausted flag is set *and* the queue is empty. -/
def TSBuffer.isExhausted (b : TSBuffer) : Bool :=
  b.exhausted && b.buffer.isEmpty

/-- A producer's sequence of `push` calls. -/
def TSBuffer.pushAll (b : TSBuffer) (batches : List (List ℚ)) : TSBuffer :=
  batches.foldl TSBuffer.push b

/-- A consumer's sequence of `pull` calls (one `maxCount` per call),
collecting the returned batches in order. -/
def TSBuffer.pullSeq (b : TSBuffer) : List ℕ → List (List ℚ) × TSBuffer
  | [] => ([], b)
  | mc :: mcs =>
    ((b.pull mc).1 :: ((b.pull mc).2.pullSeq mcs).1, ((b.pull mc).2.pullSeq mcs).2)

/-- The channel state after a producer pushes `batches` and then calls
`setExhausted(true)`. -/
def exhaustScenario (batches : List (List ℚ)) : TSBuffer :=
  (TSBuffer.pushAll TSBuffer.init batches).setExhausted true

/-! ## Ring buffer (`include/utils/ring_buffer.h`)

The template `RingBuffer<T>` instantiated at `T = float`: a contiguous
fixed-capacity FIFO with `write_pos_`/`read_pos_`/`size_` cursors.  The
backing store `buffer_` is a list whose length stays `capacity_`.  The C++
`throw` of `push`/`skip` is modelled by `none`; `pop`/`peek` return their
success flag.  `std::copy` into the store becomes `listWrite`, the
two-chunk wrap-around read becomes `readWrap`. -/

structure RingBuffer where
  buffer : List ℚ
  capacity : ℕ
  write_pos : ℕ
  read_pos : ℕ
  size : ℕ
  deriving DecidableEq

/-- `RingBuffer(capacity)`: value-initialized backing store, zero cursors. -/
def RingBuffer.init (capacity : ℕ) : RingBuffer :=
  ⟨List.replicate capacity 0, capacity, 0, 0, 0⟩

def RingBuffer.available (rb : RingBuffer) : ℕ := rb.capacity - rb.size

/-- `std::copy(src, src + n, buffer + pos)`: overwrite `buf[pos + i]` with
`src[i]` for each `i`. -/
def listWrite : List ℚ → ℕ → List ℚ → List ℚ
  | buf, _, [] => buf
  | buf, pos, x :: xs => listWrite (buf.set pos x) (pos + 1) xs

/-- The two contiguous copies of a wrap-around read of `cnt` scalars
starting at `pos`: `first_chunk = min cnt (cap - pos)` from `pos`, the rest
from the start of the store. -/
def readWrap (buf : List ℚ) (pos cnt cap : ℕ) : List ℚ :=
  (buf.drop pos).take (min cnt (cap - pos)) ++ buf.take (cnt - min cnt (cap - pos))

/-- `push(data, count)`: `overflow_error` (`none`) when `count > available()`;
otherwise at most two contiguous copies, then advance `write_pos_` modulo
`capacity_` and grow `size_`. -/
def RingBuffer.push (rb : RingBuffer) (data : List ℚ) : Option RingBuffer :=
  if data.length > rb.available then none
  else
    let first_chunk := min data.length (rb.capacity - rb.write_pos)
    let buf1 := listWrite rb.buffer rb.write_pos (data.take first_chunk)
    let buf2 := if data.length > first_chunk
      then listWrite buf1 0 (data.drop first_chunk) else buf1
    some ⟨buf2, rb.capacity, (rb.write_pos + data.length) % rb.capacity,
      rb.read_pos, rb.size + data.length⟩

/-- `pop(output, count)`: returns `false` (copying nothing, mutating
nothing) when `count > size_`; otherwise copies `count` scalars from
`read_pos_` and advances the read cursor. -/
def RingBuffer.pop (rb : RingBuffer) (cnt : ℕ) : Bool × List ℚ × RingBuffer :=
  if cnt > rb.size then (false, [], rb)
  else (true, readWrap rb.buffer rb.read_pos cnt rb.capacity,
    ⟨rb.buffer, rb.capacity, rb.write_pos, (rb.read_pos + cnt) % rb.capacity,
      rb.size - cnt⟩)

/-- `peek(output, count, offset)`: non-destructive bounds-checked read;
returns `false` (copying nothing) when `offset + count > size_`. -/
def RingBuffer.peek (rb : RingBuffer) (cnt offset : ℕ) : Bool × List ℚ :=
  if offset + cnt > rb.size then (false, [])
  else (true, readWrap rb.buffer ((rb.read_pos + offset) % rb.capacity) cnt rb.capacity)

/-- `skip(count)`: `underflow_error` (`none`) when `count > size_`;
otherwise advance the read cursor without copying. -/
def RingBuffer.skip (rb : RingBuffer) (cnt : ℕ) : Option RingBuffer :=
  if cnt > rb.size then none
  else some ⟨rb.buffer, rb.capacity, rb.write_pos,
    (rb.read_pos + cnt) % rb.capacity, rb.size - cnt⟩

/-- Abstraction: the FIFO contents, oldest first — the `size_` scalars of
the store starting at `read_pos_`, wrapping around. -/
def RingBuffer.contents (rb : RingBuffer) : List ℚ :=
  (rb.buffer.rotate rb.read_pos).take rb.size

/-- Structural invariant tying the cursors to the store. -/
def RingBuffer.Wf (rb : RingBuffer) : Prop :=
  rb.buffer.length = rb.capacity ∧ 0 < rb.capacity ∧
    rb.read_pos < rb.capacity ∧ rb.write_pos < rb.capacity ∧
    rb.size ≤ rb.capacity ∧ rb.write_pos = (rb.read_pos + rb.size) % rb.capacity

/-- States reachable from a freshly constructed buffer by successful
pushes, pops (failing pops return the state unchanged) and skips. -/
inductive RingBuffer.Reachable : RingBuffer → Prop
  | init (c : ℕ) (hc : 0 < c) : RingBuffer.Reachable (RingBuffer.init c)
  | push (rb rb' : RingBuffer) (data : List ℚ) : RingBuffer.Reachable rb →
      rb.push data = some rb' → RingBuffer.Reachable rb'
  | pop (rb : RingBuffer) (cnt : ℕ) : RingBuffer.Reachable rb →
      RingBuffer.Reachable (rb.pop cnt).2.2
  | skip (rb rb' : RingBuffer) (cnt : ℕ) : RingBuffer.Reachable rb →
      rb.skip cnt = some rb' → RingBuffer.Reachable rb'

/-! ## Embedding stage (`SpeechEmbeddingProcessor::run`,
`src/processors/speech_embedding.cpp`, lines 42–91)

The stage's mel buffer `melBuffer_` is a `RingBuffer` constructed with
capacity `EMBEDDING_WINDOW_SIZE * NUM_MELS * 2` (two windows).  Each pulled
batch, if nonempty, is pushed into the ring — which throws
`std::overflow_error` (modelled `none`) when the batch exceeds
`available()` — and the inner while-loop then drains full windows. -/

/-- Inner while-loop of `SpeechEmbeddingProcessor::run` (lines 66–84): while
the ring holds at least `EMBEDDING_WINDOW_SIZE` mel frames, peek a window of
`EMBEDDING_WINDOW_SIZE * NUM_MELS` scalars, run the embedding model `emb` on
it, push the resulting embedding vector to every detector channel, and skip
`EMBEDDING_STEP_SIZE * NUM_MELS` scalars.  The `skip` cannot underflow here
(the guard gives `size ≥ 2432 > 256`); its impossible-failure branch leaves
the state unchanged.  Each detector channel is the list of batches pushed to
it so far.  Returns (embeddings emitted in order — one per model
invocation —, channel contents, final ring state). -/
def embedLoop (emb : List ℚ → List ℚ) (rb : RingBuffer)
    (chans : List (List (List ℚ))) :
    List (List ℚ) × List (List (List ℚ)) × RingBuffer :=
  if h : EMBEDDING_WINDOW_SIZE ≤ rb.size / NUM_MELS then
    let w := emb (rb.peek (EMBEDDING_WINDOW_SIZE * NUM_MELS) 0).2
    match hsk : rb.skip (EMBEDDING_STEP_SIZE * NUM_MELS) with
    | none => ([], chans, rb)
    | some rb1 =>
      let r := embedLoop emb rb1 (chans.map (fun c => c ++ [w]))
      (w :: r.1, r.2.1, r.2.2)
  else
    ([], chans, rb)
  termination_by rb.size
  decreasing_by
    rw [RingBuffer.skip] at hsk
    split at hsk
    · exact absurd hsk (by simp)
    · injection hsk with hsk
      rw [← hsk]
      simp only [EMBEDDING_WINDOW_SIZE, NUM_MELS, EMBEDDING_STEP_SIZE] at h ⊢
      omega

/-- Outer loop of `SpeechEmbeddingProcessor::run`: pull each batch of mel
scalars, push it into the ring if nonempty (`none` = the push threw
`std::overflow_error`, aborting the stage), and drain with `embedLoop`. -/
def embedRun (emb : List ℚ → List ℚ) (batches : List (List ℚ))
    (rb : RingBuffer) (chans : List (List (List ℚ))) :
    Option (List (List ℚ) × List (List (List ℚ)) × RingBuffer) :=
  match batches with
  | [] => some ([], chans, rb)
  | b :: bs =>
    match (if b = [] then some rb else rb.push b) with
    | none => none
    | some rb1 =>
      match embedRun emb bs (embedLoop emb rb1 chans).2.2
          (embedLoop emb rb1 chans).2.1 with
      | none => none
      | some r2 => some ((embedLoop emb rb1 chans).1 ++ r2.1, r2.2.1, r2.2.2)

theorem processPrediction_eq_specStep (thr : ℚ) (tl rs : ℤ) (p : ℚ) (a : ℤ) :
    processPrediction thr tl rs p a = specActivationStep thr tl rs p a := by
  unfold processPrediction specActivationStep
  split_ifs <;>
    first
      | rfl
      | (simp only [Prod.mk.injEq]; exact ⟨by omega, trivial⟩)

/-- **C1.** The detector's per-prediction update equals the spec's activation
state machine: `processPrediction` (from the source) and `specActivationStep`
(from the spec text) agree on every input, and hence the whole runs from the
initial counter `activationCount_ = 0` agree on every prediction stream. -/
theorem c1_detector_step_refines_spec (thr : ℚ) (tl rs : ℤ) :
    (∀ p a, processPrediction thr tl rs p a = specActivationStep thr tl rs p a) ∧
      ∀ ps, runDetect thr tl rs 0 ps = specRunDetect thr tl rs 0 ps := by
  refine ⟨fun p a => processPrediction_eq_specStep thr tl rs p a, fun ps => ?_⟩
  suffices h : ∀ ps a, runDetect thr tl rs a ps = specRunDetect thr tl rs a ps from
    h ps 0
  intro ps
  induction ps with
  | nil => intro a; rfl
  | cons p ps ih =>
    intro a
    simp only [runDetect, specRunDetect, processPrediction_eq_specStep, ih]

/-! ## Basic run lemmas -/

theorem runDetect_length (thr : ℚ) (tl rs : ℤ) :
    ∀ (ps : List ℚ) (a : ℤ), (runDetect thr tl rs a ps).length = ps.length := by
  intro ps
  induction ps with
  | nil => intro a; rfl
  | cons p ps ih => intro a; simp [runDetect, ih]

theorem afterDetect_append (thr : ℚ) (tl rs : ℤ) :
    ∀ (ps qs : List ℚ) (a : ℤ),
      afterDetect thr tl rs a (ps ++ qs) =
        afterDetect thr tl rs (afterDetect thr tl rs a ps) qs := by
  intro ps
  induction ps with
  | nil => intro qs a; rfl
  | cons p ps ih => intro qs a; simp [afterDetect, ih]

/-- Each step changes the activation count by at most `+1` (the refractory
reset only ever lowers it, since `triggerLevel ≥ 1 > 0 ≥ -refractorySteps`). -/
theorem processPrediction_fst_le (thr : ℚ) (tl rs : ℤ) (htl : 1 ≤ tl) (hrs : 0 ≤ rs)
    (p : ℚ) (a : ℤ) : (processPrediction thr tl rs p a).1 ≤ a + 1 := by
  simp only [processPrediction]
  split_ifs <;> simp only [] <;> omega

/-- A step emits a detection exactly when the prediction is above threshold
and the incremented count reaches `triggerLevel`; it then resets the count
to `-refractorySteps`. -/
theorem processPrediction_snd_true (thr : ℚ) (tl rs : ℤ) (p : ℚ) (a : ℤ)
    (h : (processPrediction thr tl rs p a).2 = true) :
    p > thr ∧ tl ≤ a + 1 ∧ (processPrediction thr tl rs p a).1 = -rs := by
  simp only [processPrediction] at h ⊢
  split_ifs at h ⊢ <;> simp_all

/-- Over `m` predictions the activation count rises by at most `m`. -/
theorem afterDetect_le (thr : ℚ) (tl rs : ℤ) (htl : 1 ≤ tl) (hrs : 0 ≤ rs) :
    ∀ (ps : List ℚ) (a : ℤ), afterDetect thr tl rs a ps ≤ a + ps.length := by
  intro ps
  induction ps with
  | nil => intro a; simp [afterDetect]
  | cons p ps ih =>
    intro a
    calc afterDetect thr tl rs (processPrediction thr tl rs p a).1 ps
        ≤ (processPrediction thr tl rs p a).1 + ps.length := ih _
      _ ≤ a + 1 + ps.length := by
          have := processPrediction_fst_le thr tl rs htl hrs p a
          omega
      _ = a + (p :: ps).length := by simp; ring

/-- If the detector fires at index `n` of a run then (i) the incoming
activation count was at least `triggerLevel - 1`, (ii) the count right after
the firing step is `-refractorySteps`, and (iii) the firing prediction is
above threshold. -/
theorem fired_at (thr : ℚ) (tl rs : ℤ) :
    ∀ (ps : List ℚ) (a : ℤ) (n : ℕ),
      (runDetect thr tl rs a ps).get? n = some true →
        tl ≤ afterDetect thr tl rs a (ps.take n) + 1 ∧
        afterDetect thr tl rs a (ps.take (n + 1)) = -rs ∧
        ∃ p, ps.get? n = some p ∧ p > thr := by
  intro ps
  induction ps with
  | nil => intro a n h; simp [runDetect] at h
  | cons p ps ih =>
    intro a n h
    match n with
    | 0 =>
      have h2 : (processPrediction thr tl rs p a).2 = true := by
        simpa [runDetect] using h
      obtain ⟨hp, htr, hres⟩ := processPrediction_snd_true thr tl rs p a h2
      refine ⟨by simpa [afterDetect] using htr, ?_, p, rfl, hp⟩
      simpa [afterDetect] using hres
    | n + 1 =>
      have h' : (runDetect thr tl rs (processPrediction thr tl rs p a).1 ps).get? n
          = some true := by
        simpa [runDetect] using h
      obtain ⟨h1, h2, p', hp', hgt⟩ := ih (processPrediction thr tl rs p a).1 n h'
      refine ⟨?_, ?_, p', ?_, hgt⟩
      · simpa [afterDetect] using h1
      · simpa [afterDetect] using h2
      · simpa using hp'

/-- Two detections of one run are at least `refractorySteps + triggerLevel`
steps apart. -/
theorem detect_gap (thr : ℚ) (tl rs : ℤ) (htl : 1 ≤ tl) (hrs : 0 ≤ rs)
    (ps : List ℚ) (a : ℤ) (i j : ℕ) (hij : i < j)
    (hi : (runDetect thr tl rs a ps).get? i = some true)
    (hj : (runDetect thr tl rs a ps).get? j = some true) :
    (rs + tl).toNat ≤ j - i := by
  have hiR := fired_at thr tl rs ps a i hi
  have hjR := fired_at thr tl rs ps a j hj
  have hjlen : j < ps.length := by
    obtain ⟨hlt, -⟩ := List.get?_eq_some.mp hj
    have hlen := runDetect_length thr tl rs ps a
    omega
  -- split `ps.take j` as `ps.take (i+1) ++ middle`
  have hsplit : ps.take j = ps.take (i + 1) ++ ((ps.drop (i + 1)).take (j - (i + 1))) := by
    rw [← List.take_add]
    congr 1
    omega
  have hmidlen : ((ps.drop (i + 1)).take (j - (i + 1))).length = j - (i + 1) := by
    rw [List.length_take, List.length_drop]
    omega
  have hafter : afterDetect thr tl rs a (ps.take j) ≤ -rs + (j - (i + 1) : ℕ) := by
    rw [hsplit, afterDetect_append, hiR.2.1]
    calc afterDetect thr tl rs (-rs) ((ps.drop (i + 1)).take (j - (i + 1)))
        ≤ -rs + ((ps.drop (i + 1)).take (j - (i + 1))).length :=
          afterDetect_le thr tl rs htl hrs _ _
      _ = -rs + (j - (i + 1) : ℕ) := by rw [hmidlen]
  have hkey : tl ≤ -rs + ((j - (i + 1) : ℕ) : ℤ) + 1 :=
    le_trans hjR.1 (add_le_add_right hafter 1)
  omega

/-- **C2.** Refractory bound: for every threshold, every `triggerLevel ≥ 1`,
every `refractorySteps ≥ 0` and every prediction stream, within any window of
`refractorySteps + triggerLevel` consecutive predictions starting right after
a detection at index `i`, at most one further detection is emitted: no two
distinct indices `j < k` in that window both carry a detection. -/
theorem c2_refractory_bound (thr : ℚ) (tl rs : ℤ) (htl : 1 ≤ tl) (hrs : 0 ≤ rs)
    (ps : List ℚ) (i j k : ℕ) (hij : i < j) (hjk : j < k)
    (hwin : k ≤ i + (rs + tl).toNat)
    (hi : (runDetect thr tl rs 0 ps).get? i = some true) :
    ¬((runDetect thr tl rs 0 ps).get? j = some true ∧
      (runDetect thr tl rs 0 ps).get? k = some true) := by
  rintro ⟨hj, hk⟩
  have g1 := detect_gap thr tl rs htl hrs ps 0 i j hij hi hj
  have g2 := detect_gap thr tl rs htl hrs ps 0 j k hjk hj hk
  omega

theorem c2_refractory_bound_witness :
    ((1 : ℤ) ≤ 1 ∧ (0 : ℤ) ≤ 1 ∧ 0 < 1 ∧ 1 < 2 ∧ 2 ≤ 0 + ((1 : ℤ) + 1).toNat ∧
      (runDetect 0 1 1 0 [1, 1, 1]).get? 0 = some true) ∧
    ¬((runDetect 0 1 1 0 [1, 1, 1]).get? 1 = some true ∧
      (runDetect 0 1 1 0 [1, 1, 1]).get? 2 = some true) :=
  ⟨⟨le_refl 1, by decide, by decide, by decide, by decide, by decide⟩,
    c2_refractory_bound 0 1 1 (by decide) (by decide) [1, 1, 1] 0 1 2
      (by decide) (by decide) (by decide) (by decide)⟩

/-! ## Debouncing bound (C3) -/

theorem suffScore_le_bestSuff (thr : ℚ) : ∀ ps : List ℚ, suffScore thr ps ≤ bestSuff thr ps
  | [] => le_refl 0
  | _ :: _ => le_max_left _ _

theorem bestSuff_nonneg (thr : ℚ) : ∀ ps : List ℚ, 0 ≤ bestSuff thr ps
  | [] => le_refl 0
  | _ :: ps => le_trans (bestSuff_nonneg thr ps) (le_max_right _ _)

/-- The best suffix score is attained by an actual suffix. -/
theorem bestSuff_achieved (thr : ℚ) :
    ∀ ps : List ℚ, ∃ s, s <:+ ps ∧ suffScore thr s = bestSuff thr ps := by
  intro ps
  induction ps with
  | nil => exact ⟨[], List.suffix_refl [], rfl⟩
  | cons p ps ih =>
    rcases le_total (bestSuff thr ps) (suffScore thr (p :: ps)) with h | h
    · exact ⟨p :: ps, List.suffix_refl _, (max_eq_left h).symm⟩
    · obtain ⟨s, hs, he⟩ := ih
      exact ⟨s, hs.trans (List.suffix_cons p ps), he.trans (max_eq_right h).symm⟩

/-- The accumulator never exceeds the beaten path: its final value is bounded
by the best suffix score (plus the carried-in seed along the full stream). -/
theorem bestAcc_le (thr : ℚ) :
    ∀ (ps : List ℚ) (b : ℤ),
      bestAcc thr b ps ≤ max (b + suffScore thr ps) (bestSuff thr ps) := by
  intro ps
  induction ps with
  | nil =>
    intro b
    simp only [bestAcc, suffScore, bestSuff, List.map_nil, List.sum_nil]
    omega
  | cons p ps ih =>
    intro b
    have h1 := ih (max 0 (b + hitVal thr p))
    have h2 := suffScore_le_bestSuff thr ps
    simp only [bestAcc, suffScore, bestSuff, List.map_cons, List.sum_cons] at *
    omega

theorem bestAcc_append (thr : ℚ) :
    ∀ (xs ys : List ℚ) (b : ℤ),
      bestAcc thr b (xs ++ ys) = bestAcc thr (bestAcc thr b xs) ys := by
  intro xs
  induction xs with
  | nil => intro ys b; rfl
  | cons x xs ih =>
    intro ys b
    simp only [List.cons_append, bestAcc, List.append_eq, ih]

/-- The activation count is dominated by the Kadane accumulator. -/
theorem afterDetect_le_bestAcc (thr : ℚ) (tl rs : ℤ) (htl : 1 ≤ tl) (hrs : 0 ≤ rs) :
    ∀ (ps : List ℚ) (a b : ℤ), a ≤ b → 0 ≤ b →
      afterDetect thr tl rs a ps ≤ bestAcc thr b ps := by
  intro ps
  induction ps with
  | nil => intro a b hab _; simpa [afterDetect, bestAcc] using hab
  | cons p ps ih =>
    intro a b hab hb
    simp only [afterDetect, bestAcc]
    apply ih
    · simp only [processPrediction, hitVal]
      split_ifs <;> simp only [] <;> omega
    · exact le_max_left 0 _

/-- The activation count is dominated by the number of above-threshold
predictions consumed (for runs started at a nonpositive count). -/
theorem afterDetect_le_hitCount (thr : ℚ) (tl rs : ℤ) (htl : 1 ≤ tl) (hrs : 0 ≤ rs) :
    ∀ (ps : List ℚ) (a : ℤ),
      afterDetect thr tl rs a ps ≤ max a 0 + (hitCount thr ps : ℤ) := by
  intro ps
  induction ps with
  | nil => intro a; simp only [afterDetect, hitCount, List.countP_nil]; omega
  | cons p ps ih =>
    intro a
    have h1 := ih (processPrediction thr tl rs p a).1
    have h2 : (processPrediction thr tl rs p a).1 ≤ a + 1 :=
      processPrediction_fst_le thr tl rs htl hrs p a
    have h3 : p > thr → (hitCount thr (p :: ps) : ℤ) = (hitCount thr ps : ℤ) + 1 := by
      intro hp
      simp [hitCount, List.countP_cons, hp]
    have h4 : ¬(p > thr) →
        ((hitCount thr (p :: ps) : ℤ) = (hitCount thr ps : ℤ) ∧
          (processPrediction thr tl rs p a).1 ≤ max a 0) := by
      intro hp
      refine ⟨by simp [hitCount, List.countP_cons, hp], ?_⟩
      simp only [processPrediction, if_neg hp]
      split_ifs <;> simp only [] <;> omega
    simp only [afterDetect]
    by_cases hp : p > thr
    · have := h3 hp
      omega
    · have := h4 hp
      omega

/-- **C3 (amended).** A detection is emitted only if, in the history since
the last trigger (or since start: initial count `0` or `-refractorySteps`,
with no earlier detection in the run), at least `triggerLevel` predictions
above threshold occurred, and some *suffix* of that history has a count of
above-threshold minus below-threshold predictions of at least
`triggerLevel`. -/
theorem c3_debounce_bound (thr : ℚ) (tl rs : ℤ) (htl : 1 ≤ tl) (hrs : 0 ≤ rs)
    (a0 : ℤ) (ha0 : a0 = 0 ∨ a0 = -rs) (ps : List ℚ) (n : ℕ)
    (hfire : (runDetect thr tl rs a0 ps).get? n = some true)
    (hfirst : ∀ m, m < n → (runDetect thr tl rs a0 ps).get? m ≠ some true) :
    tl ≤ (hitCount thr (ps.take (n + 1)) : ℤ) ∧
      ∃ s, s <:+ ps.take (n + 1) ∧ tl ≤ suffScore thr s := by
  have ha0' : a0 ≤ 0 := by rcases ha0 with h | h <;> omega
  obtain ⟨h1, -, p, hp, hpgt⟩ := fired_at thr tl rs ps a0 n hfire
  have htake : ps.take (n + 1) = ps.take n ++ [p] := by
    have hp2 : ps[n]? = some p := by rwa [← List.get?_eq_getElem?]
    rw [List.take_succ, hp2]
    rfl
  constructor
  · have h6 := afterDetect_le_hitCount thr tl rs htl hrs (ps.take n) a0
    have hcnt : (hitCount thr (ps.take (n + 1)) : ℤ) =
        (hitCount thr (ps.take n) : ℤ) + 1 := by
      rw [htake]
      simp [hitCount, List.countP_append, hpgt]
    omega
  · have h5 := afterDetect_le_bestAcc thr tl rs htl hrs (ps.take n) a0 0 ha0' le_rfl
    have hb : tl ≤ bestAcc thr 0 (ps.take (n + 1)) := by
      rw [htake, bestAcc_append]
      simp only [bestAcc, hitVal, if_pos hpgt]
      omega
    have h4 := bestAcc_le thr (ps.take (n + 1)) 0
    have hS1 := suffScore_le_bestSuff thr (ps.take (n + 1))
    have hbest : tl ≤ bestSuff thr (ps.take (n + 1)) := by omega
    obtain ⟨s, hs, he⟩ := bestSuff_achieved thr (ps.take (n + 1))
    exact ⟨s, hs, by rw [he]; exact hbest⟩

/-- **C3, claim as stated is false**: with threshold `0`, `triggerLevel = 1`,
`refractorySteps = 0`, on predictions `[-1, 1]` the detector fires at the
second prediction (no earlier detection, so the history since start is the
whole stream), yet the count of above-threshold minus below-threshold
predictions in that history is `0 < 1 = triggerLevel`. -/
theorem c3_counterexample :
    (runDetect 0 1 0 0 [-1, 1]).get? 1 = some true ∧
      (∀ m, m < 1 → (runDetect 0 1 0 0 [-1, 1]).get? m ≠ some true) ∧
      suffScore 0 ([(-1 : ℚ), 1].take (1 + 1)) < 1 := by
  refine ⟨by decide, ?_, by decide⟩
  intro m hm
  match m with
  | 0 => decide

theorem c3_debounce_bound_witness :
    ((1 : ℤ) ≤ 1 ∧ (0 : ℤ) ≤ 0 ∧ ((0 : ℤ) = 0 ∨ (0 : ℤ) = -0) ∧
      (runDetect 0 1 0 0 [-1, 1]).get? 1 = some true ∧
      (∀ m, m < 1 → (runDetect 0 1 0 0 [-1, 1]).get? m ≠ some true)) ∧
    (1 ≤ (hitCount 0 ([(-1 : ℚ), 1].take (1 + 1)) : ℤ) ∧
      ∃ s, s <:+ [(-1 : ℚ), 1].take (1 + 1) ∧ 1 ≤ suffScore 0 s) :=
  ⟨⟨le_refl 1, le_refl 0, Or.inl rfl, by decide,
      fun m hm => by match m with | 0 => decide⟩,
    c3_debounce_bound 0 1 0 (le_refl 1) (le_refl 0) 0 (Or.inl rfl) [-1, 1] 1
      (by decide) (fun m hm => by match m with | 0 => decide)⟩

/-! ## Sliding-window iteration counts (C4, C5) -/

theorem winCnt_pos {W S s : ℕ} (h : 0 < S ∧ 0 < W ∧ W ≤ s) :
    winCnt W S s = winCnt W S (s - S) + 1 := by
  rw [winCnt, dif_pos h]

theorem winCnt_neg {W S s : ℕ} (h : ¬(0 < S ∧ 0 < W ∧ W ≤ s)) :
    winCnt W S s = 0 := by
  rw [winCnt, dif_neg h]

theorem winRes_pos {W S s : ℕ} (h : 0 < S ∧ 0 < W ∧ W ≤ s) :
    winRes W S s = winRes W S (s - S) := by
  rw [winRes, dif_pos h]

theorem winRes_neg {W S s : ℕ} (h : ¬(0 < S ∧ 0 < W ∧ W ≤ s)) :
    winRes W S s = s := by
  rw [winRes, dif_neg h]

/-- The loop always stops with fewer than one window left. -/
theorem winRes_lt (W S : ℕ) (hS : 0 < S) (hW : 0 < W) :
    ∀ s, winRes W S s < W := by
  intro s
  induction s using Nat.strong_induction_on with
  | _ s ih =>
    by_cases h : 0 < S ∧ 0 < W ∧ W ≤ s
    · rw [winRes_pos h]; exact ih (s - S) (by omega)
    · rw [winRes_neg h]; omega

/-- Feeding the input incrementally makes the same total number of loop
iterations, and leaves the same residual, as feeding it all at once. -/
theorem win_add (W S : ℕ) (hSW : S ≤ W) :
    ∀ x y, winCnt W S (winRes W S x + y) + winCnt W S x = winCnt W S (x + y) ∧
      winRes W S (winRes W S x + y) = winRes W S (x + y) := by
  intro x
  induction x using Nat.strong_induction_on with
  | _ x ih =>
    intro y
    by_cases h : 0 < S ∧ 0 < W ∧ W ≤ x
    · have hrec := ih (x - S) (by omega) y
      have hxy : 0 < S ∧ 0 < W ∧ W ≤ x + y := by omega
      have e5 : x + y - S = (x - S) + y := by omega
      rw [winRes_pos h, winCnt_pos h, winCnt_pos hxy, winRes_pos hxy, e5]
      exact ⟨by have := hrec.1; omega, hrec.2⟩
    · rw [winRes_neg h, winCnt_neg h]
      exact ⟨by omega, rfl⟩

theorem winCnt_closed (W S : ℕ) :
    ∀ s, 0 < S → 0 < W → W ≤ s → winCnt W S s = (s - W) / S + 1 := by
  intro s
  induction s using Nat.strong_induction_on with
  | _ s ih =>
    intro hS hW hWs
    rw [winCnt_pos ⟨hS, hW, hWs⟩]
    by_cases h2 : W ≤ s - S
    · rw [ih (s - S) (by omega) hS hW h2]
      have he : s - W = (s - S - W) + S := by omega
      rw [he, Nat.add_div_right _ hS]
    · rw [winCnt_neg (by omega)]
      have : (s - W) / S = 0 := Nat.div_eq_of_lt (by omega)
      omega

/-- The detector inner loop invokes the keyword model once per window of
`WAKEWORD_FEATURES` embeddings and slides by one embedding per
invocation. -/
theorem wakeLoop_spec (model : List ℚ → ℚ) (thr : ℚ) (tl rs : ℤ) :
    ∀ (buf : List ℚ) (a : ℤ),
      (wakeLoop model thr tl rs buf a).1.length = winCnt 1536 96 buf.length ∧
      (wakeLoop model thr tl rs buf a).2.1.length = winRes 1536 96 buf.length := by
  suffices h : ∀ (N : ℕ) (buf : List ℚ), buf.length ≤ N → ∀ a : ℤ,
      (wakeLoop model thr tl rs buf a).1.length = winCnt 1536 96 buf.length ∧
      (wakeLoop model thr tl rs buf a).2.1.length = winRes 1536 96 buf.length from
    fun buf a => h buf.length buf le_rfl a
  intro N
  induction N with
  | zero =>
    intro buf hlen a
    have hg : ¬(WAKEWORD_FEATURES ≤ buf.length / EMBEDDING_FEATURES) := by
      simp only [WAKEWORD_FEATURES, EMBEDDING_FEATURES]
      omega
    rw [wakeLoop, dif_neg hg]
    constructor
    · rw [winCnt_neg (show ¬(0 < 96 ∧ 0 < 1536 ∧ 1536 ≤ buf.length) by omega)]
      rfl
    · rw [winRes_neg (show ¬(0 < 96 ∧ 0 < 1536 ∧ 1536 ≤ buf.length) by omega)]
  | succ N ih =>
    intro buf hlen a
    by_cases hg : WAKEWORD_FEATURES ≤ buf.length / EMBEDDING_FEATURES
    · have hg96 : 1536 ≤ buf.length := by
        simp only [WAKEWORD_FEATURES, EMBEDDING_FEATURES] at hg
        omega
      rw [wakeLoop, dif_pos hg]
      dsimp only []
      have hlen2 : (buf.drop EMBEDDING_FEATURES).length ≤ N := by
        simp only [List.length_drop, EMBEDDING_FEATURES]
        omega
      obtain ⟨ih1, ih2⟩ := ih _ hlen2
        (processPrediction thr tl rs (model (buf.take (WAKEWORD_FEATURES * EMBEDDING_FEATURES))) a).1
      have hdrop : (buf.drop EMBEDDING_FEATURES).length = buf.length - 96 := by
        simp only [List.length_drop, EMBEDDING_FEATURES]
      constructor
      · rw [winCnt_pos ⟨by omega, by omega, hg96⟩]
        simp only [List.length_cons, ih1, hdrop]
      · rw [winRes_pos ⟨by omega, by omega, hg96⟩]
        rw [ih2, hdrop]
    · rw [wakeLoop, dif_neg hg]
      have hg96 : buf.length < 1536 := by
        simp only [WAKEWORD_FEATURES, EMBEDDING_FEATURES] at hg
        omega
      constructor
      · rw [winCnt_neg (show ¬(0 < 96 ∧ 0 < 1536 ∧ 1536 ≤ buf.length) by omega)]
        rfl
      · rw [winRes_neg (show ¬(0 < 96 ∧ 0 < 1536 ∧ 1536 ≤ buf.length) by omega)]

/-- The detector outer loop: total number of keyword-model invocations
depends only on the total scalar count. -/
theorem wakeRun_spec (model : List ℚ → ℚ) (thr : ℚ) (tl rs : ℤ) :
    ∀ (batches : List (List ℚ)) (buf : List ℚ), buf.length < 1536 → ∀ a : ℤ,
      (wakeRun model thr tl rs batches buf a).1.length =
        winCnt 1536 96 (buf.length + (batches.map List.length).sum) ∧
      (wakeRun model thr tl rs batches buf a).2.1.length =
        winRes 1536 96 (buf.length + (batches.map List.length).sum) := by
  intro batches
  induction batches with
  | nil =>
    intro buf hq a
    simp only [wakeRun, List.map_nil, List.sum_nil, Nat.add_zero]
    constructor
    · rw [winCnt_neg (show ¬(0 < 96 ∧ 0 < 1536 ∧ 1536 ≤ buf.length) by omega)]
      rfl
    · rw [winRes_neg (show ¬(0 < 96 ∧ 0 < 1536 ∧ 1536 ≤ buf.length) by omega)]
  | cons b bs ih =>
    intro buf hq a
    simp only [wakeRun]
    obtain ⟨hL1, hL2⟩ := wakeLoop_spec model thr tl rs (buf ++ b) a
    have hq2 : (wakeLoop model thr tl rs (buf ++ b) a).2.1.length < 1536 := by
      rw [hL2]
      exact winRes_lt 1536 96 (by omega) (by omega) _
    obtain ⟨hR1, hR2⟩ := ih (wakeLoop model thr tl rs (buf ++ b) a).2.1 hq2
      (wakeLoop model thr tl rs (buf ++ b) a).2.2
    have hadd := win_add 1536 96 (by omega) (buf ++ b).length (bs.map List.length).sum
    have harg : (buf ++ b).length + (bs.map List.length).sum =
        buf.length + ((b :: bs).map List.length).sum := by
      simp [List.length_append]
      omega
    constructor
    · rw [List.length_append, hR1, hL1, hL2, ← harg]
      have := hadd.1
      omega
    · rw [hR2, hL2, ← harg]
      exact hadd.2

/-- **C5.** For every embedding stream of `e` embedding vectors
(`e * EMBEDDING_FEATURES` scalars, split into batches arbitrarily) with
`e ≥ 16` fed into one detector, the detector invokes its keyword model
exactly `e - 15` times, advancing by one embedding (96 scalars) after each
prediction. -/
theorem c5_detector_invocation_count (model : List ℚ → ℚ) (thr : ℚ) (tl rs : ℤ)
    (batches : List (List ℚ)) (e : ℕ) (he : WAKEWORD_FEATURES ≤ e)
    (hsum : (batches.map List.length).sum = e * EMBEDDING_FEATURES) :
    (wakeRun model thr tl rs batches [] 0).1.length = e - 15 := by
  simp only [WAKEWORD_FEATURES] at he
  simp only [EMBEDDING_FEATURES] at hsum
  obtain ⟨h1, -⟩ := wakeRun_spec model thr tl rs batches [] (by simp) 0
  rw [h1]
  simp only [List.length_nil, Nat.zero_add, hsum]
  rw [winCnt_closed 1536 96 (e * 96) (by omega) (by omega) (by omega)]
  omega

theorem c5_detector_invocation_count_witness :
    (WAKEWORD_FEATURES ≤ 16 ∧
      ([List.replicate 1536 (0 : ℚ)].map List.length).sum = 16 * EMBEDDING_FEATURES) ∧
    (wakeRun (fun _ => 1) 0 1 0 [List.replicate 1536 (0 : ℚ)] [] 0).1.length = 16 - 15 :=
  ⟨⟨by decide, by simp only [List.map_cons, List.map_nil, List.length_replicate,
      List.sum_cons, List.sum_nil, EMBEDDING_FEATURES]; rfl⟩,
    c5_detector_invocation_count (fun _ => 1) 0 1 0 [List.replicate 1536 (0 : ℚ)] 16
      (by decide) (by simp only [List.map_cons, List.map_nil, List.length_replicate,
      List.sum_cons, List.sum_nil, EMBEDDING_FEATURES]; rfl)⟩

/-! ## Mel scaling and the alleged output-shape check (C6, C7) -/

theorem melScale_foldl (f : ℚ → ℚ) :
    ∀ (l acc : List ℚ), l.foldl (fun r v => r ++ [f v]) acc = acc ++ l.map f := by
  intro l
  induction l with
  | nil => intro acc; simp
  | cons x xs ih => intro acc; simp [ih]

theorem melScale_eq_map (melData : List ℚ) :
    melScale melData = melData.map (fun v => v / 10 + 2) := by
  simpa [melScale] using melScale_foldl (fun v => v / 10 + 2) melData []

/-- **C6.** The mel stage's scaling loop applies `x ↦ x/10 + 2` to every
element of the tensor returned by the mel model, before the result is
pushed downstream: the scaled batch has the same element count, and its
`i`-th scalar equals `vᵢ/10 + 2` where `vᵢ` is the `i`-th model output
element. -/
theorem c6_mel_affine_scaling (melData : List ℚ) :
    (melScale melData).length = melData.length ∧
      ∀ i : ℕ, (melScale melData).get? i =
        (melData.get? i).map (fun v => v / 10 + 2) := by
  rw [melScale_eq_map]
  exact ⟨List.length_map _ _, fun i => (List.get?_map _ _ _)⟩

/-- **C7, claim as stated is false**: a mel-model output of 33 elements —
not a multiple of `NUM_MELS = 32` — causes no failure: with `frameSize = 1`
and one buffered sample, `computeMelSpectrogram` succeeds and the stage
pushes the scaled 33-element batch downstream. -/
theorem c7_counterexample :
    (33 % NUM_MELS ≠ 0 ∧ 0 < 33) ∧
      computeMelSpectrogram 1 (fun _ => List.replicate 33 0) [0] ≠ none ∧
      melLoop 1 (fun _ => List.replicate 33 0) [0] =
        some ([List.replicate 33 (2 : ℚ)], []) := by
  refine ⟨by decide, ?_, ?_⟩
  · simp [computeMelSpectrogram]
  · rw [melLoop]
    simp only [List.length_cons, List.length_nil]
    rw [dif_pos (by omega)]
    rw [show computeMelSpectrogram 1 (fun _ => List.replicate 33 0)
          (List.take 1 [0]) = some (melScale (List.replicate 33 0)) from by
        simp [computeMelSpectrogram]]
    rw [melLoop]
    simp only [List.drop, List.length_nil]
    rw [dif_neg (by omega)]
    rw [melScale_eq_map]
    simp [List.map_replicate]

/-- **C7 (amended).** The mel stage performs no check on the mel model's
output element count: whenever the popped frame has exactly `frameSize`
samples, `computeMelSpectrogram` returns the scaled model output — whatever
its element count — and the stage's loop never fails (its only fatal check,
input size ≠ `frameSize`, cannot trigger because the loop pops exactly
`frameSize` samples). -/
theorem c7_mel_no_shape_check (frameSize : ℕ) (model : List ℚ → List ℚ) :
    (∀ samples : List ℚ, samples.length = frameSize →
      computeMelSpectrogram frameSize model samples =
        some (melScale (model samples))) ∧
    ∀ buf : List ℚ, melLoop frameSize model buf ≠ none := by
  constructor
  · intro samples h
    simp [computeMelSpectrogram, h]
  · suffices h : ∀ (N : ℕ) (buf : List ℚ), buf.length ≤ N →
        melLoop frameSize model buf ≠ none from
      fun buf => h buf.length buf le_rfl
    intro N
    induction N with
    | zero =>
      intro buf hlen
      rw [melLoop, dif_neg (by omega)]
      simp
    | succ N ih =>
      intro buf hlen
      rw [melLoop]
      by_cases hg : 0 < frameSize ∧ frameSize ≤ buf.length
      · rw [dif_pos hg]
        have htk : (buf.take frameSize).length = frameSize := by
          rw [List.length_take]
          omega
        rw [show computeMelSpectrogram frameSize model (buf.take frameSize) =
              some (melScale (model (buf.take frameSize))) from by
            simp [computeMelSpectrogram, htk]]
        have hdrop : (buf.drop frameSize).length ≤ N := by
          rw [List.length_drop]
          omega
        have hrec := ih (buf.drop frameSize) hdrop
        cases hml : melLoop frameSize model (buf.drop frameSize) with
        | none => exact absurd hml hrec
        | some r => simp
      · rw [dif_neg hg]
        simp

theorem c7_mel_no_shape_check_witness :
    (([(0 : ℚ)].length = 1 ∧
        computeMelSpectrogram 1 (fun _ => List.replicate 33 0) [0] =
          some (melScale (List.replicate 33 0))) ∧
      melLoop 1 (fun _ => List.replicate 33 0) [0] ≠ none) :=
  ⟨⟨rfl, (c7_mel_no_shape_check 1 (fun _ => List.replicate 33 0)).1 [0] rfl⟩,
    (c7_mel_no_shape_check 1 (fun _ => List.replicate 33 0)).2 [0]⟩

/-! ## Ring buffer lemmas (C8, C10) -/

theorem listWrite_length :
    ∀ (src buf : List ℚ) (pos : ℕ), (listWrite buf pos src).length = buf.length := by
  intro src
  induction src with
  | nil => intro buf pos; rfl
  | cons x xs ih =>
    intro buf pos
    rw [listWrite, ih, List.length_set]

/-- Writing `src` at a position with enough room overwrites exactly the
`src.length` scalars starting there. -/
theorem listWrite_spec :
    ∀ (src buf : List ℚ) (pos : ℕ), pos + src.length ≤ buf.length →
      listWrite buf pos src = buf.take pos ++ src ++ buf.drop (pos + src.length) := by
  intro src
  induction src with
  | nil =>
    intro buf pos h
    simp [listWrite]
  | cons x xs ih =>
    intro buf pos h
    simp only [List.length_cons] at h
    have hpos : pos < buf.length := by omega
    rw [listWrite, ih _ _ (by rw [List.length_set]; omega)]
    rw [List.set_eq_take_cons_drop x hpos]
    have h1 : (buf.take pos ++ x :: buf.drop (pos + 1)).take (pos + 1)
        = buf.take pos ++ [x] := by
      rw [show pos + 1 = (buf.take pos).length + 1 from by
          rw [List.length_take, min_eq_left (by omega)]]
      rw [List.take_append]
      rfl
    have h2 : (buf.take pos ++ x :: buf.drop (pos + 1)).drop (pos + 1 + xs.length)
        = buf.drop (pos + (xs.length + 1)) := by
      rw [show pos + 1 + xs.length = (buf.take pos).length + (1 + xs.length) from by
          rw [List.length_take, min_eq_left (by omega)]; omega]
      rw [List.drop_append]
      show (x :: buf.drop (pos + 1)).drop (1 + xs.length) = _
      rw [show 1 + xs.length = xs.length + 1 from by omega]
      rw [List.drop_succ_cons, List.drop_drop]
      congr 1
      omega
    rw [h1, h2]
    simp [List.length_cons]

/-- The two-chunk wrap-around read equals a rotation followed by a take. -/
theorem readWrap_eq (buf : List ℚ) (pos cnt cap : ℕ) (hlen : buf.length = cap)
    (hpos : pos < cap) (hcnt : cnt ≤ cap) :
    readWrap buf pos cnt cap = (buf.rotate pos).take cnt := by
  rw [List.rotate_eq_drop_append_take (by omega)]
  unfold readWrap
  by_cases h : cnt ≤ cap - pos
  · rw [min_eq_left h]
    rw [Nat.sub_self, List.take_zero, List.append_nil]
    rw [List.take_append_of_le_length (by rw [List.length_drop]; omega)]
  · rw [min_eq_right (by omega)]
    have hd : (buf.drop pos).take (cap - pos) = buf.drop pos :=
      List.take_of_length_le (by rw [List.length_drop]; omega)
    rw [hd, List.take_append_eq_append_take]
    rw [List.take_of_length_le (show (buf.drop pos).length ≤ cnt from by
        rw [List.length_drop]; omega)]
    rw [List.length_drop, hlen]
    rw [List.take_take, min_eq_left (by omega)]

theorem contents_length (rb : RingBuffer) (hwf : rb.Wf) :
    rb.contents.length = rb.size := by
  obtain ⟨h1, h2, h3, h4, h5, h6⟩ := hwf
  rw [RingBuffer.contents, List.length_take, List.length_rotate]
  omega

/-- Contents after a non-wrapping write at `W = R + s` (write region inside
`[R + s, c)`). -/
theorem push_contents_noWrapHigh (buf data : List ℚ) (c R s : ℕ)
    (hlen : buf.length = c) (hnw : R + s + data.length ≤ c) :
    ((listWrite buf (R + s) data).rotate R).take (s + data.length)
      = (buf.rotate R).take s ++ data := by
  rw [listWrite_spec data buf (R + s) (by omega)]
  rw [List.rotate_eq_drop_append_take (show R ≤ (buf.take (R + s) ++ data
      ++ buf.drop (R + s + data.length)).length from by
    simp only [List.length_append, List.length_take, List.length_drop]
    omega)]
  rw [List.rotate_eq_drop_append_take (show R ≤ buf.length from by omega)]
  rw [show (buf.take (R + s) ++ data ++ buf.drop (R + s + data.length)).drop R
      = (buf.drop R).take s ++ (data ++ buf.drop (R + s + data.length)) from by
    rw [List.append_assoc, List.drop_append_eq_append_drop]
    rw [List.length_take, min_eq_left (by omega)]
    rw [show R - (R + s) = 0 from by omega, List.drop_zero]
    rw [List.drop_take, show R + s - R = s from by omega]]
  rw [show (buf.take (R + s) ++ data ++ buf.drop (R + s + data.length)).take R
      = buf.take R from by
    rw [List.append_assoc, List.take_append_eq_append_take]
    rw [List.length_take, min_eq_left (by omega)]
    rw [show R - (R + s) = 0 from by omega, List.take_zero, List.append_nil]
    rw [List.take_take, min_eq_left (by omega)]]
  rw [show ((buf.drop R).take s ++ (data ++ buf.drop (R + s + data.length)))
        ++ buf.take R
      = ((buf.drop R).take s ++ data)
        ++ (buf.drop (R + s + data.length) ++ buf.take R) from by
    simp only [List.append_assoc]]
  rw [List.take_left' (show ((buf.drop R).take s ++ data).length
      = s + data.length from by
    simp only [List.length_append, List.length_take, List.length_drop]
    omega)]
  rw [List.take_append_of_le_length (show s ≤ (buf.drop R).length from by
    rw [List.length_drop]; omega)]

/-- Contents after a non-wrapping write at `W = R + s - c` (buffer already
wrapped; write region inside `[W, R)`). -/
theorem push_contents_noWrapLow (buf data : List ℚ) (c R s : ℕ)
    (hlen : buf.length = c) (hR : R < c) (hs : s ≤ c) (hcRs : c ≤ R + s)
    (hd : data.length ≤ c - s) :
    ((listWrite buf (R + s - c) data).rotate R).take (s + data.length)
      = (buf.rotate R).take s ++ data := by
  rw [listWrite_spec data buf (R + s - c) (by omega)]
  rw [List.rotate_eq_drop_append_take (show R ≤ (buf.take (R + s - c) ++ data
      ++ buf.drop (R + s - c + data.length)).length from by
    simp only [List.length_append, List.length_take, List.length_drop]
    omega)]
  rw [List.rotate_eq_drop_append_take (show R ≤ buf.length from by omega)]
  rw [show (buf.take (R + s - c) ++ data ++ buf.drop (R + s - c + data.length)).drop R
      = buf.drop R from by
    rw [List.append_assoc, List.drop_append_eq_append_drop]
    rw [List.drop_eq_nil_of_le (show (buf.take (R + s - c)).length ≤ R from by
      rw [List.length_take]; omega)]
    rw [List.length_take, min_eq_left (by omega), List.nil_append]
    rw [List.drop_append_eq_append_drop]
    rw [List.drop_eq_nil_of_le (show data.length ≤ R - (R + s - c) from by omega)]
    rw [List.nil_append, List.drop_drop]
    congr 1
    omega]
  rw [show (buf.take (R + s - c) ++ data ++ buf.drop (R + s - c + data.length)).take R
      = buf.take (R + s - c) ++ (data
          ++ (buf.drop (R + s - c + data.length)).take (R - (R + s - c)
              - data.length)) from by
    rw [List.append_assoc, List.take_append_eq_append_take]
    rw [List.take_take, min_eq_right (by omega)]
    rw [List.length_take, min_eq_left (by omega)]
    rw [List.take_append_eq_append_take]
    rw [List.take_of_length_le (show data.length ≤ R - (R + s - c) from by omega)]]
  rw [show buf.drop R ++ (buf.take (R + s - c) ++ (data
        ++ (buf.drop (R + s - c + data.length)).take (R - (R + s - c) - data.length)))
      = ((buf.drop R ++ buf.take (R + s - c)) ++ data)
        ++ (buf.drop (R + s - c + data.length)).take (R - (R + s - c) - data.length)
    from by simp only [List.append_assoc]]
  rw [List.take_left' (show ((buf.drop R ++ buf.take (R + s - c)) ++ data).length
      = s + data.length from by
    simp only [List.length_append, List.length_take, List.length_drop]
    omega)]
  rw [show (buf.drop R ++ buf.take R).take s
      = buf.drop R ++ buf.take (R + s - c) from by
    rw [List.take_append_eq_append_take]
    rw [List.take_of_length_le (show (buf.drop R).length ≤ s from by
      rw [List.length_drop]; omega)]
    rw [List.length_drop, hlen]
    rw [List.take_take, min_eq_left (by omega)]
    congr 2
    omega]

/-- Contents after a wrapping write (`W = R + s`, write spills past the end
of the store onto its start). -/
theorem push_contents_wrap (buf data : List ℚ) (c R s : ℕ)
    (hlen : buf.length = c) (hRs : R + s < c) (hd : data.length ≤ c - s)
    (hw : c < R + s + data.length) :
    ((listWrite (listWrite buf (R + s) (data.take (c - (R + s)))) 0
        (data.drop (c - (R + s)))).rotate R).take (s + data.length)
      = (buf.rotate R).take s ++ data := by
  rw [show listWrite buf (R + s) (data.take (c - (R + s)))
      = buf.take (R + s) ++ data.take (c - (R + s)) from by
    rw [listWrite_spec _ _ _ (by rw [List.length_take]; omega)]
    rw [List.length_take, min_eq_left (by omega)]
    rw [show R + s + (c - (R + s)) = c from by omega]
    rw [List.drop_eq_nil_of_le (by omega), List.append_nil]]
  rw [show listWrite (buf.take (R + s) ++ data.take (c - (R + s))) 0
        (data.drop (c - (R + s)))
      = data.drop (c - (R + s)) ++ ((buf.take (R + s)).drop (data.length
          - (c - (R + s))) ++ data.take (c - (R + s))) from by
    rw [listWrite_spec _ _ _ (show 0 + (data.drop (c - (R + s))).length
        ≤ (buf.take (R + s) ++ data.take (c - (R + s))).length from by
      simp only [List.length_append, List.length_take, List.length_drop]
      omega)]
    rw [List.take_zero, List.nil_append, Nat.zero_add, List.length_drop]
    rw [List.drop_append_eq_append_drop]
    rw [show data.length - (c - (R + s)) - (buf.take (R + s)).length = 0 from by
      rw [List.length_take]; omega]
    rw [List.drop_zero]]
  rw [List.rotate_eq_drop_append_take (show R ≤ (data.drop (c - (R + s))
      ++ ((buf.take (R + s)).drop (data.length - (c - (R + s)))
        ++ data.take (c - (R + s)))).length from by
    simp only [List.length_append, List.length_drop, List.length_take]
    omega)]
  rw [List.rotate_eq_drop_append_take (show R ≤ buf.length from by omega)]
  rw [show (data.drop (c - (R + s)) ++ ((buf.take (R + s)).drop (data.length
        - (c - (R + s))) ++ data.take (c - (R + s)))).drop R
      = (buf.drop R).take s ++ data.take (c - (R + s)) from by
    rw [List.drop_append_eq_append_drop]
    rw [List.drop_eq_nil_of_le (show (data.drop (c - (R + s))).length ≤ R from by
      rw [List.length_drop]; omega)]
    rw [List.nil_append, List.length_drop]
    rw [List.drop_append_eq_append_drop]
    rw [List.drop_drop]
    rw [show data.length - (c - (R + s)) + (R - (data.length - (c - (R + s)))) = R
      from by omega]
    rw [List.drop_take, show R + s - R = s from by omega]
    rw [show R - (data.length - (c - (R + s)))
          - ((buf.take (R + s)).drop (data.length - (c - (R + s)))).length = 0 from by
      rw [List.length_drop, List.length_take]; omega]
    rw [List.drop_zero]]
  rw [show (data.drop (c - (R + s)) ++ ((buf.take (R + s)).drop (data.length
        - (c - (R + s))) ++ data.take (c - (R + s)))).take R
      = data.drop (c - (R + s))
        ++ ((buf.take (R + s)).drop (data.length - (c - (R + s)))
            ++ data.take (c - (R + s))).take (R - (data.length - (c - (R + s))))
    from by
    rw [List.take_append_eq_append_take]
    rw [List.take_of_length_le (show (data.drop (c - (R + s))).length ≤ R from by
      rw [List.length_drop]; omega)]
    rw [List.length_drop]]
  rw [show ((buf.drop R).take s ++ data.take (c - (R + s)))
        ++ (data.drop (c - (R + s))
          ++ ((buf.take (R + s)).drop (data.length - (c - (R + s)))
              ++ data.take (c - (R + s))).take (R - (data.length - (c - (R + s)))))
      = (((buf.drop R).take s ++ data.take (c - (R + s))) ++ data.drop (c - (R + s)))
        ++ ((buf.take (R + s)).drop (data.length - (c - (R + s)))
            ++ data.take (c - (R + s))).take (R - (data.length - (c - (R + s))))
    from by simp only [List.append_assoc]]
  rw [List.take_left' (show (((buf.drop R).take s ++ data.take (c - (R + s)))
      ++ data.drop (c - (R + s))).length = s + data.length from by
    simp only [List.length_append, List.length_take, List.length_drop]
    omega)]
  rw [List.append_assoc, List.take_append_drop]
  rw [List.take_append_of_le_length (show s ≤ (buf.drop R).length from by
    rw [List.length_drop]; omega)]

/-- A push within `available()` succeeds, preserves the invariant, and
appends the data to the FIFO contents. -/
theorem RingBuffer.push_spec (rb : RingBuffer) (data : List ℚ) (hwf : rb.Wf)
    (hle : data.length ≤ rb.available) :
    ∃ rb', rb.push data = some rb' ∧ rb'.Wf ∧
      rb'.contents = rb.contents ++ data ∧
      rb'.capacity = rb.capacity ∧ rb'.size = rb.size + data.length := by
  obtain ⟨hlen, hc, hR, hW, hs, hWeq⟩ := hwf
  rw [RingBuffer.available] at hle
  have hnot : ¬(data.length > rb.available) := by
    rw [RingBuffer.available]; omega
  by_cases hcase : data.length ≤ rb.capacity - rb.write_pos
  · have hfc : min data.length (rb.capacity - rb.write_pos) = data.length :=
      min_eq_left hcase
    have hpush : rb.push data = some ⟨listWrite rb.buffer rb.write_pos data,
        rb.capacity, (rb.write_pos + data.length) % rb.capacity, rb.read_pos,
        rb.size + data.length⟩ := by
      simp only [RingBuffer.push, if_neg hnot, hfc]
      rw [if_neg (by omega), List.take_length]
    refine ⟨_, hpush, ?_, ?_, rfl, rfl⟩
    · refine ⟨?_, hc, hR, Nat.mod_lt _ hc,
        show rb.size + data.length ≤ rb.capacity by omega, ?_⟩
      · rw [listWrite_length, hlen]
      · show (rb.write_pos + data.length) % rb.capacity
          = (rb.read_pos + (rb.size + data.length)) % rb.capacity
        rw [hWeq, Nat.mod_add_mod, Nat.add_assoc]
    · show ((listWrite rb.buffer rb.write_pos data).rotate rb.read_pos).take
          (rb.size + data.length) = rb.contents ++ data
      rw [RingBuffer.contents]
      by_cases hRs : rb.read_pos + rb.size < rb.capacity
      · have hWv : rb.write_pos = rb.read_pos + rb.size := by
          rw [hWeq, Nat.mod_eq_of_lt hRs]
        rw [hWv]
        exact push_contents_noWrapHigh rb.buffer data rb.capacity rb.read_pos
          rb.size hlen (by omega)
      · have hWv : rb.write_pos = rb.read_pos + rb.size - rb.capacity := by
          rw [hWeq, Nat.mod_eq_sub_mod (by omega),
            Nat.mod_eq_of_lt (by omega)]
        rw [hWv]
        exact push_contents_noWrapLow rb.buffer data rb.capacity rb.read_pos
          rb.size hlen hR hs (by omega) (by omega)
  · have hfc : min data.length (rb.capacity - rb.write_pos)
        = rb.capacity - rb.write_pos := min_eq_right (by omega)
    have hRs : rb.read_pos + rb.size < rb.capacity := by
      by_contra hcon
      have hWv : rb.write_pos = rb.read_pos + rb.size - rb.capacity := by
        rw [hWeq, Nat.mod_eq_sub_mod (by omega), Nat.mod_eq_of_lt (by omega)]
      omega
    have hWv : rb.write_pos = rb.read_pos + rb.size := by
      rw [hWeq, Nat.mod_eq_of_lt hRs]
    have hpush : rb.push data = some ⟨listWrite (listWrite rb.buffer rb.write_pos
        (data.take (rb.capacity - rb.write_pos))) 0
        (data.drop (rb.capacity - rb.write_pos)),
        rb.capacity, (rb.write_pos + data.length) % rb.capacity, rb.read_pos,
        rb.size + data.length⟩ := by
      simp only [RingBuffer.push, if_neg hnot, hfc]
      rw [if_pos (by omega)]
    refine ⟨_, hpush, ?_, ?_, rfl, rfl⟩
    · refine ⟨?_, hc, hR, Nat.mod_lt _ hc,
        show rb.size + data.length ≤ rb.capacity by omega, ?_⟩
      · rw [listWrite_length, listWrite_length, hlen]
      · show (rb.write_pos + data.length) % rb.capacity
          = (rb.read_pos + (rb.size + data.length)) % rb.capacity
        rw [hWeq, Nat.mod_add_mod, Nat.add_assoc]
    · show ((listWrite (listWrite rb.buffer rb.write_pos
          (data.take (rb.capacity - rb.write_pos))) 0
          (data.drop (rb.capacity - rb.write_pos))).rotate rb.read_pos).take
          (rb.size + data.length) = rb.contents ++ data
      rw [RingBuffer.contents, hWv]
      exact push_contents_wrap rb.buffer data rb.capacity rb.read_pos rb.size
        hlen hRs (by omega) (by omega)

/-- A pop within `size()` succeeds, returns the oldest `cnt` scalars, and
removes exactly them. -/
theorem RingBuffer.pop_spec (rb : RingBuffer) (cnt : ℕ) (hwf : rb.Wf)
    (hle : cnt ≤ rb.size) :
    (rb.pop cnt).1 = true ∧ (rb.pop cnt).2.1 = rb.contents.take cnt ∧
      (rb.pop cnt).2.2.Wf ∧ (rb.pop cnt).2.2.contents = rb.contents.drop cnt ∧
      (rb.pop cnt).2.2.capacity = rb.capacity ∧
      (rb.pop cnt).2.2.size = rb.size - cnt := by
  obtain ⟨hlen, hc, hR, hW, hs, hWeq⟩ := hwf
  rw [RingBuffer.pop, if_neg (by omega)]
  refine ⟨rfl, ?_, ⟨hlen, hc, Nat.mod_lt _ hc, hW,
    show rb.size - cnt ≤ rb.capacity by omega, ?_⟩, ?_, rfl, rfl⟩
  · show readWrap rb.buffer rb.read_pos cnt rb.capacity = rb.contents.take cnt
    rw [readWrap_eq rb.buffer rb.read_pos cnt rb.capacity hlen hR (by omega)]
    rw [RingBuffer.contents, List.take_take, min_eq_left hle]
  · show rb.write_pos = ((rb.read_pos + cnt) % rb.capacity + (rb.size - cnt))
        % rb.capacity
    rw [Nat.mod_add_mod, hWeq]
    congr 1
    omega
  · show (rb.buffer.rotate ((rb.read_pos + cnt) % rb.capacity)).take (rb.size - cnt)
      = rb.contents.drop cnt
    rw [show (rb.read_pos + cnt) % rb.capacity
        = (rb.read_pos + cnt) % rb.buffer.length from by rw [hlen]]
    rw [List.rotate_mod, ← List.rotate_rotate]
    rw [List.rotate_eq_drop_append_take (show cnt ≤ (rb.buffer.rotate
        rb.read_pos).length from by rw [List.length_rotate]; omega)]
    rw [List.take_append_of_le_length (show rb.size - cnt
        ≤ ((rb.buffer.rotate rb.read_pos).drop cnt).length from by
      rw [List.length_drop, List.length_rotate]; omega)]
    rw [RingBuffer.contents, List.drop_take]

/-- A peek within bounds succeeds and returns `cnt` scalars starting
`offset` into the FIFO contents, without any state to mutate. -/
theorem RingBuffer.peek_spec (rb : RingBuffer) (cnt offset : ℕ) (hwf : rb.Wf)
    (hle : offset + cnt ≤ rb.size) :
    (rb.peek cnt offset).1 = true ∧
      (rb.peek cnt offset).2 = (rb.contents.drop offset).take cnt := by
  obtain ⟨hlen, hc, hR, hW, hs, hWeq⟩ := hwf
  rw [RingBuffer.peek, if_neg (by omega)]
  refine ⟨rfl, ?_⟩
  show readWrap rb.buffer ((rb.read_pos + offset) % rb.capacity) cnt rb.capacity
    = (rb.contents.drop offset).take cnt
  rw [readWrap_eq rb.buffer _ cnt rb.capacity hlen (Nat.mod_lt _ hc) (by omega)]
  rw [show (rb.read_pos + offset) % rb.capacity
      = (rb.read_pos + offset) % rb.buffer.length from by rw [hlen]]
  rw [List.rotate_mod, ← List.rotate_rotate]
  rw [List.rotate_eq_drop_append_take (show offset ≤ (rb.buffer.rotate
      rb.read_pos).length from by rw [List.length_rotate]; omega)]
  rw [List.take_append_of_le_length (show cnt ≤ ((rb.buffer.rotate
      rb.read_pos).drop offset).length from by
    rw [List.length_drop, List.length_rotate]; omega)]
  rw [RingBuffer.contents, List.drop_take, List.take_take, min_eq_left (by omega)]

/-- A skip within `size()` succeeds and drops the oldest `cnt` scalars. -/
theorem RingBuffer.skip_spec (rb : RingBuffer) (cnt : ℕ) (hwf : rb.Wf)
    (hle : cnt ≤ rb.size) :
    ∃ rb', rb.skip cnt = some rb' ∧ rb'.Wf ∧
      rb'.contents = rb.contents.drop cnt ∧
      rb'.capacity = rb.capacity ∧ rb'.size = rb.size - cnt := by
  obtain ⟨hlen, hc, hR, hW, hs, hWeq⟩ := hwf
  rw [RingBuffer.skip, if_neg (by omega)]
  refine ⟨_, rfl, ⟨hlen, hc, Nat.mod_lt _ hc, hW,
    show rb.size - cnt ≤ rb.capacity by omega, ?_⟩, ?_, rfl, rfl⟩
  · show rb.write_pos = ((rb.read_pos + cnt) % rb.capacity + (rb.size - cnt))
        % rb.capacity
    rw [Nat.mod_add_mod, hWeq]
    congr 1
    omega
  · show (rb.buffer.rotate ((rb.read_pos + cnt) % rb.capacity)).take (rb.size - cnt)
      = rb.contents.drop cnt
    rw [show (rb.read_pos + cnt) % rb.capacity
        = (rb.read_pos + cnt) % rb.buffer.length from by rw [hlen]]
    rw [List.rotate_mod, ← List.rotate_rotate]
    rw [List.rotate_eq_drop_append_take (show cnt ≤ (rb.buffer.rotate
        rb.read_pos).length from by rw [List.length_rotate]; omega)]
    rw [List.take_append_of_le_length (show rb.size - cnt
        ≤ ((rb.buffer.rotate rb.read_pos).drop cnt).length from by
      rw [List.length_drop, List.length_rotate]; omega)]
    rw [RingBuffer.contents, List.drop_take]

/-- Every reachable state satisfies the structural invariant. -/
theorem RingBuffer.reachable_wf (rb : RingBuffer) (h : rb.Reachable) : rb.Wf := by
  induction h with
  | init c hc =>
    exact ⟨List.length_replicate c 0, hc, hc, hc,
      show (0 : ℕ) ≤ c by omega, show (0 : ℕ) = (0 + 0) % c by simp⟩
  | push rb rb' data hr hp ih =>
    by_cases hd : data.length > rb.available
    · rw [RingBuffer.push, if_pos hd] at hp
      exact absurd hp (by simp)
    · obtain ⟨rb'', hp2, hwf2, -, -, -⟩ :=
        RingBuffer.push_spec rb data ih (by omega)
      rw [hp] at hp2
      exact Option.some.inj hp2 ▸ hwf2
  | pop rb cnt hr ih =>
    by_cases hd : cnt > rb.size
    · rw [RingBuffer.pop, if_pos hd]
      exact ih
    · exact (RingBuffer.pop_spec rb cnt ih (by omega)).2.2.1
  | skip rb rb' cnt hr hs ih =>
    by_cases hd : cnt > rb.size
    · rw [RingBuffer.skip, if_pos hd] at hs
      exact absurd hs (by simp)
    · obtain ⟨rb'', hs2, hwf2, -, -, -⟩ :=
        RingBuffer.skip_spec rb cnt ih (by omega)
      rw [hs] at hs2
      exact Option.some.inj hs2 ▸ hwf2

/-- **C8, claim as stated is false**: from the reachable state holding `[5]`
in a capacity-2 buffer, pushing `[7]` (1 ≤ available) and then popping 1
value returns `[5]` — the oldest value — not the value just pushed. -/
theorem c8_counterexample :
    (RingBuffer.init 2).push [5] = some ⟨[5, 0], 2, 1, 0, 1⟩ ∧
      (RingBuffer.mk [5, 0] 2 1 0 1).Reachable ∧
      1 ≤ (RingBuffer.mk [5, 0] 2 1 0 1).available ∧
      (RingBuffer.mk [5, 0] 2 1 0 1).push [7] = some ⟨[5, 7], 2, 0, 0, 2⟩ ∧
      ((RingBuffer.mk [5, 7] 2 0 0 2).pop 1).2.1 = [5] ∧
      ([5] : List ℚ) ≠ [7] := by
  refine ⟨by decide, ?_, by decide, by decide, by decide, by decide⟩
  exact RingBuffer.Reachable.push (RingBuffer.init 2) _ [5]
    (RingBuffer.Reachable.init 2 (by decide)) (by decide)

/-- **C8 (amended).** FIFO round trip: for every reachable ring-buffer
state and every batch `data` with `data.length ≤ available()`, pushing
`data` and then popping `size() + data.length` values succeeds and returns
the prior contents followed by exactly the pushed values, in push order (so
from an empty state the pop returns exactly the pushed values), including
when the write wraps around the end of the backing store. -/
theorem c8_ring_fifo (rb : RingBuffer) (hr : rb.Reachable) (data : List ℚ)
    (hle : data.length ≤ rb.available) :
    ∃ rb', rb.push data = some rb' ∧
      (rb'.pop (rb.size + data.length)).1 = true ∧
      (rb'.pop (rb.size + data.length)).2.1 = rb.contents ++ data := by
  have hwf := RingBuffer.reachable_wf rb hr
  obtain ⟨rb', hp, hwf', hcont, hcap, hsize⟩ :=
    RingBuffer.push_spec rb data hwf hle
  obtain ⟨h1, h2, -, -, -, -⟩ :=
    RingBuffer.pop_spec rb' (rb.size + data.length) hwf' (by omega)
  refine ⟨rb', hp, h1, ?_⟩
  rw [h2, hcont]
  apply List.take_of_length_le
  rw [List.length_append, contents_length rb hwf]

theorem c8_ring_fifo_witness :
    ((RingBuffer.init 2).Reachable ∧
      [(7 : ℚ), 8].length ≤ (RingBuffer.init 2).available) ∧
    ∃ rb', (RingBuffer.init 2).push [7, 8] = some rb' ∧
      (rb'.pop ((RingBuffer.init 2).size + [(7 : ℚ), 8].length)).1 = true ∧
      (rb'.pop ((RingBuffer.init 2).size + [(7 : ℚ), 8].length)).2.1
        = (RingBuffer.init 2).contents ++ [7, 8] :=
  ⟨⟨RingBuffer.Reachable.init 2 (by decide), by decide⟩,
    c8_ring_fifo (RingBuffer.init 2) (RingBuffer.Reachable.init 2 (by decide))
      [7, 8] (by decide)⟩

/-- **C10.** Every failing ring-buffer operation is all-or-nothing:
`pop` with `count > size()` and `peek` with `offset + count > size()` report
failure by returning `false`, copy no elements, and (for `pop`) return the
state unchanged; `push` with `count > available()` and `skip` with
`count > size()` throw (modelled `none`) — the throw happens before any
mutation, so no post-state exists.  No operation consumes or writes a
partial amount. -/
theorem c10_ring_failure_semantics (rb : RingBuffer) (cnt offset : ℕ)
    (data : List ℚ) :
    (cnt > rb.size → rb.pop cnt = (false, [], rb)) ∧
    (offset + cnt > rb.size → rb.peek cnt offset = (false, [])) ∧
    (data.length > rb.available → rb.push data = none) ∧
    (cnt > rb.size → rb.skip cnt = none) := by
  refine ⟨fun h => ?_, fun h => ?_, fun h => ?_, fun h => ?_⟩
  · rw [RingBuffer.pop, if_pos h]
  · rw [RingBuffer.peek, if_pos h]
  · rw [RingBuffer.push, if_pos h]
  · rw [RingBuffer.skip, if_pos h]

theorem c10_ring_failure_semantics_witness :
    (2 > (RingBuffer.init 1).size ∧ 0 + 2 > (RingBuffer.init 1).size ∧
      [(1 : ℚ), 2].length > (RingBuffer.init 1).available) ∧
    ((RingBuffer.init 1).pop 2 = (false, [], RingBuffer.init 1) ∧
      (RingBuffer.init 1).peek 2 0 = (false, []) ∧
      (RingBuffer.init 1).push [1, 2] = none ∧
      (RingBuffer.init 1).skip 2 = none) :=
  ⟨⟨by decide, by decide, by decide⟩,
    ⟨(c10_ring_failure_semantics (RingBuffer.init 1) 2 0 [1, 2]).1 (by decide),
      (c10_ring_failure_semantics (RingBuffer.init 1) 2 0 [1, 2]).2.1 (by decide),
      (c10_ring_failure_semantics (RingBuffer.init 1) 2 0 [1, 2]).2.2.1 (by decide),
      (c10_ring_failure_semantics (RingBuffer.init 1) 2 0 [1, 2]).2.2.2 (by decide)⟩⟩

/-! ## Handoff-channel exhaustion contract (C9) -/

/-- One pull from a channel whose exhausted flag is set: the returned batch
is a prefix of the queue (the remainder staying queued), it is empty iff
the queue was already empty, and the flag stays set. -/
theorem TSBuffer.pull_exhausted (b : TSBuffer) (hb : b.exhausted = true)
    (mc : ℕ) :
    (b.pull mc).1 ++ (b.pull mc).2.buffer = b.buffer ∧
      ((b.pull mc).1 = [] ↔ b.buffer = []) ∧
      (b.pull mc).2.exhausted = true := by
  rw [TSBuffer.pull]
  by_cases hempty : b.buffer = []
  · rw [if_pos ⟨hb, hempty⟩]
    exact ⟨by simp [hempty], by simp [hempty], hb⟩
  · rw [if_neg (by simp [hempty])]
    by_cases hmc : mc = 0 ∨ b.buffer.length ≤ mc
    · rw [if_pos hmc]
      exact ⟨by simp, by simp [hempty], hb⟩
    · rw [if_neg hmc]
      push_neg at hmc
      refine ⟨by simp [List.take_append_drop], ?_, hb⟩
      simp only [List.take_eq_nil_iff]
      constructor
      · rintro (h | h)
        · exact absurd h hmc.1
        · exact absurd h hempty
      · intro h
        exact absurd h hempty

/-- Along any sequence of pulls from an exhausted channel: the pulled
batches concatenate (with the residual queue) to the original queue, the
flag stays set, and whenever some pull returns an empty batch, every queued
scalar was already returned by the earlier pulls. -/
theorem TSBuffer.pullSeq_exhausted (mcs : List ℕ) :
    ∀ b : TSBuffer, b.exhausted = true →
      ((b.pullSeq mcs).1.flatten ++ (b.pullSeq mcs).2.buffer = b.buffer) ∧
      ((b.pullSeq mcs).2.exhausted = true) ∧
      (∀ i, (b.pullSeq mcs).1.get? i = some [] →
        ((b.pullSeq mcs).1.take i).flatten = b.buffer) := by
  induction mcs with
  | nil =>
    intro b hb
    refine ⟨by simp [TSBuffer.pullSeq], hb, ?_⟩
    intro i h
    simp [TSBuffer.pullSeq] at h
  | cons mc mcs ih =>
    intro b hb
    obtain ⟨hp1, hp2, hp3⟩ := TSBuffer.pull_exhausted b hb mc
    obtain ⟨ih1, ih2, ih3⟩ := ih (b.pull mc).2 hp3
    refine ⟨?_, ih2, ?_⟩
    · simp only [TSBuffer.pullSeq, List.flatten_cons]
      rw [List.append_assoc, ih1, hp1]
    · intro i h
      match i with
      | 0 =>
        have hnil : (b.pull mc).1 = [] := by
          simpa [TSBuffer.pullSeq] using h
        have hbuf : b.buffer = [] := hp2.mp hnil
        simp [hbuf]
      | i + 1 =>
        have h' : ((b.pull mc).2.pullSeq mcs).1.get? i = some [] := by
          simpa [TSBuffer.pullSeq] using h
        have hrec := ih3 i h'
        simp only [TSBuffer.pullSeq, List.take_succ_cons, List.flatten_cons]
        rw [hrec, hp1]

/-- A producer's pushes accumulate in order; pushing does not set the
exhausted flag. -/
theorem TSBuffer.pushAll_state (batches : List (List ℚ)) :
    ∀ b : TSBuffer, (b.pushAll batches).buffer = b.buffer ++ batches.flatten ∧
      (b.pushAll batches).exhausted = b.exhausted := by
  induction batches with
  | nil => intro b; simp [TSBuffer.pushAll]
  | cons x xs ih =>
    intro b
    obtain ⟨ih1, ih2⟩ := ih (b.push x)
    refine ⟨?_, ?_⟩
    · show (TSBuffer.pushAll (b.push x) xs).buffer = _
      rw [ih1]
      simp [TSBuffer.push, List.flatten_cons, List.append_assoc]
    · show (TSBuffer.pushAll (b.push x) xs).exhausted = _
      rw [ih2]
      rfl

/-- **C9.** Channel exhaustion contract: after a producer pushes `batches`
and calls `setExhausted(true)`, (i) along any sequence of pulls, the pulled
scalars plus the residual queue are exactly the pushed scalars in order;
(ii) whenever a pull returns an empty batch, every pushed scalar was
already returned by the earlier pulls; (iii) `isExhausted()` is true
exactly when the exhausted flag is set and the queue is empty — in the
scenario state, exactly when nothing was pushed; (iv) once exhausted and
drained, every subsequent pull returns an empty batch and leaves the state
unchanged. -/
theorem c9_channel_exhaustion (batches : List (List ℚ)) (mcs : List ℕ) :
    (((exhaustScenario batches).pullSeq mcs).1.flatten
        ++ ((exhaustScenario batches).pullSeq mcs).2.buffer = batches.flatten) ∧
    (∀ i, ((exhaustScenario batches).pullSeq mcs).1.get? i = some [] →
      (((exhaustScenario batches).pullSeq mcs).1.take i).flatten = batches.flatten) ∧
    (∀ b : TSBuffer, b.isExhausted = (b.exhausted && b.buffer.isEmpty)) ∧
    ((exhaustScenario batches).isExhausted = batches.flatten.isEmpty) ∧
    (∀ mc, ((exhaustScenario batches).pullSeq mcs).2.buffer = [] →
      ((exhaustScenario batches).pullSeq mcs).2.pull mc
        = ([], ((exhaustScenario batches).pullSeq mcs).2)) := by
  have hb : (exhaustScenario batches).buffer = batches.flatten := by
    rw [exhaustScenario]
    obtain ⟨h1, -⟩ := TSBuffer.pushAll_state batches TSBuffer.init
    show (TSBuffer.pushAll TSBuffer.init batches).buffer = _
    rw [h1]
    rfl
  have he : (exhaustScenario batches).exhausted = true := rfl
  obtain ⟨h1, h2, h3⟩ :=
    TSBuffer.pullSeq_exhausted mcs (exhaustScenario batches) he
  refine ⟨by rw [h1, hb], fun i hi => by rw [h3 i hi, hb], fun b => rfl, ?_, ?_⟩
  · rw [TSBuffer.isExhausted, he, ← hb]
    simp
  · intro mc hempty
    rw [TSBuffer.pull, if_pos ⟨h2, hempty⟩]

theorem c9_channel_exhaustion_witness :
    ((exhaustScenario [[1], [2]]).pullSeq [0, 0, 0]).1.get? 1 = some [] ∧
      (((exhaustScenario [[1], [2]]).pullSeq [0, 0, 0]).1.take 1).flatten
        = ([[(1 : ℚ)], [2]] : List (List ℚ)).flatten :=
  ⟨by decide, (c9_channel_exhaustion [[1], [2]] [0, 0, 0]).2.1 1 (by decide)⟩

/-! ## Embedding-stage counts over the bounded mel ring (C4) -/

theorem RingBuffer.init_wf (c : ℕ) (hc : 0 < c) : (RingBuffer.init c).Wf :=
  ⟨List.length_replicate c 0, hc, hc, hc, show (0 : ℕ) ≤ c by omega,
    show (0 : ℕ) = (0 + 0) % c by simp⟩

theorem embedLoop_neg (emb : List ℚ → List ℚ) (rb : RingBuffer)
    (chans : List (List (List ℚ)))
    (hg : ¬(EMBEDDING_WINDOW_SIZE ≤ rb.size / NUM_MELS)) :
    embedLoop emb rb chans = ([], chans, rb) := by
  rw [embedLoop, dif_neg hg]

theorem embedLoop_pos (emb : List ℚ → List ℚ) (rb : RingBuffer)
    (chans : List (List (List ℚ)))
    (hg : EMBEDDING_WINDOW_SIZE ≤ rb.size / NUM_MELS) (rb1 : RingBuffer)
    (hskip : rb.skip (EMBEDDING_STEP_SIZE * NUM_MELS) = some rb1) :
    embedLoop emb rb chans =
      ((emb (rb.peek (EMBEDDING_WINDOW_SIZE * NUM_MELS) 0).2) ::
          (embedLoop emb rb1 (chans.map (fun c =>
            c ++ [emb (rb.peek (EMBEDDING_WINDOW_SIZE * NUM_MELS) 0).2]))).1,
        (embedLoop emb rb1 (chans.map (fun c =>
          c ++ [emb (rb.peek (EMBEDDING_WINDOW_SIZE * NUM_MELS) 0).2]))).2.1,
        (embedLoop emb rb1 (chans.map (fun c =>
          c ++ [emb (rb.peek (EMBEDDING_WINDOW_SIZE * NUM_MELS) 0).2]))).2.2) := by
  rw [embedLoop, dif_pos hg]
  split
  · rename_i heq
    rw [hskip] at heq
    exact Option.noConfusion heq
  · rename_i rb2 heq
    rw [hskip] at heq
    obtain rfl := Option.some.inj heq
    rfl

/-- The embedding-stage inner loop invokes the model once per window, leaves
`winRes` residual scalars in the ring (preserving the ring invariant and
capacity), and appends the emitted embeddings, in order, to every channel. -/
theorem embedLoop_spec (emb : List ℚ → List ℚ) :
    ∀ (rb : RingBuffer) (chans : List (List (List ℚ))), rb.Wf →
      (embedLoop emb rb chans).1.length = winCnt 2432 256 rb.size ∧
      (embedLoop emb rb chans).2.2.Wf ∧
      (embedLoop emb rb chans).2.2.capacity = rb.capacity ∧
      (embedLoop emb rb chans).2.2.size = winRes 2432 256 rb.size ∧
      (embedLoop emb rb chans).2.1 =
        chans.map (fun c => c ++ (embedLoop emb rb chans).1) := by
  suffices h : ∀ (N : ℕ) (rb : RingBuffer), rb.size ≤ N →
      ∀ chans : List (List (List ℚ)), rb.Wf →
      (embedLoop emb rb chans).1.length = winCnt 2432 256 rb.size ∧
      (embedLoop emb rb chans).2.2.Wf ∧
      (embedLoop emb rb chans).2.2.capacity = rb.capacity ∧
      (embedLoop emb rb chans).2.2.size = winRes 2432 256 rb.size ∧
      (embedLoop emb rb chans).2.1 =
        chans.map (fun c => c ++ (embedLoop emb rb chans).1) from
    fun rb chans hwf => h rb.size rb le_rfl chans hwf
  intro N
  induction N with
  | zero =>
    intro rb hsz chans hwf
    have hg : ¬(EMBEDDING_WINDOW_SIZE ≤ rb.size / NUM_MELS) := by
      simp only [EMBEDDING_WINDOW_SIZE, NUM_MELS]
      omega
    rw [embedLoop_neg emb rb chans hg]
    refine ⟨?_, hwf, rfl, ?_, by simp⟩
    · rw [winCnt_neg (show ¬(0 < 256 ∧ 0 < 2432 ∧ 2432 ≤ rb.size) by omega)]
      rfl
    · rw [winRes_neg (show ¬(0 < 256 ∧ 0 < 2432 ∧ 2432 ≤ rb.size) by omega)]
  | succ N ih =>
    intro rb hsz chans hwf
    by_cases hg : EMBEDDING_WINDOW_SIZE ≤ rb.size / NUM_MELS
    · have hsz2432 : 2432 ≤ rb.size := by
        simp only [EMBEDDING_WINDOW_SIZE, NUM_MELS] at hg
        omega
      obtain ⟨rbs, hskip, hwfs, -, hcaps, hsizes⟩ :=
        RingBuffer.skip_spec rb (EMBEDDING_STEP_SIZE * NUM_MELS) hwf
          (show EMBEDDING_STEP_SIZE * NUM_MELS ≤ rb.size from by
            simp only [EMBEDDING_STEP_SIZE, NUM_MELS]
            omega)
      have h256 : EMBEDDING_STEP_SIZE * NUM_MELS = 256 := rfl
      rw [h256] at hsizes
      rw [embedLoop_pos emb rb chans hg rbs hskip]
      obtain ⟨ih1, ih2, ih3, ih4, ih5⟩ := ih rbs (by omega)
        (chans.map (fun c =>
          c ++ [emb (rb.peek (EMBEDDING_WINDOW_SIZE * NUM_MELS) 0).2])) hwfs
      refine ⟨?_, ih2, by rw [ih3, hcaps], ?_, ?_⟩
      · simp only [List.length_cons, ih1, hsizes]
        rw [winCnt_pos ⟨by omega, by omega, hsz2432⟩]
      · simp only [ih4, hsizes]
        rw [winRes_pos ⟨by omega, by omega, hsz2432⟩]
      · rw [ih5, List.map_map]
        congr 1
        funext c
        simp
    · rw [embedLoop_neg emb rb chans hg]
      have hlt : rb.size < 2432 := by
        simp only [EMBEDDING_WINDOW_SIZE, NUM_MELS] at hg
        omega
      refine ⟨?_, hwf, rfl, ?_, by simp⟩
      · rw [winCnt_neg (show ¬(0 < 256 ∧ 0 < 2432 ∧ 2432 ≤ rb.size) by omega)]
        rfl
      · rw [winRes_neg (show ¬(0 < 256 ∧ 0 < 2432 ∧ 2432 ≤ rb.size) by omega)]

theorem embedRun_cons_none (emb : List ℚ → List ℚ) (b : List ℚ)
    (bs : List (List ℚ)) (rb : RingBuffer) (chans : List (List (List ℚ)))
    (h : (if b = [] then some rb else rb.push b) = none) :
    embedRun emb (b :: bs) rb chans = none := by
  rw [embedRun, h]

theorem embedRun_cons_some (emb : List ℚ → List ℚ) (b : List ℚ)
    (bs : List (List ℚ)) (rb : RingBuffer) (chans : List (List (List ℚ)))
    (rb1 : RingBuffer) (h : (if b = [] then some rb else rb.push b) = some rb1) :
    embedRun emb (b :: bs) rb chans =
      match embedRun emb bs (embedLoop emb rb1 chans).2.2
          (embedLoop emb rb1 chans).2.1 with
      | none => none
      | some r2 => some ((embedLoop emb rb1 chans).1 ++ r2.1, r2.2.1, r2.2.2) := by
  rw [embedRun, h]

/-- The embedding-stage outer loop: provided no pulled batch exceeds one mel
window (2432 scalars) — so no ring push can overflow a ≥ 2-window ring with
a sub-window residual — the run throws nothing, the total number of model
invocations and the final residual depend only on the total scalar count,
and every channel receives exactly the emitted embeddings, in order. -/
theorem embedRun_spec (emb : List ℚ → List ℚ) :
    ∀ (batches : List (List ℚ)) (rb : RingBuffer) (chans : List (List (List ℚ))),
      rb.Wf → 4864 ≤ rb.capacity → rb.size < 2432 →
      (∀ b ∈ batches, b.length ≤ 2432) →
      ∃ res, embedRun emb batches rb chans = some res ∧
        res.1.length = winCnt 2432 256 (rb.size + (batches.map List.length).sum) ∧
        res.2.1 = chans.map (fun c => c ++ res.1) ∧
        res.2.2.Wf ∧ res.2.2.capacity = rb.capacity ∧
        res.2.2.size = winRes 2432 256 (rb.size + (batches.map List.length).sum) := by
  intro batches
  induction batches with
  | nil =>
    intro rb chans hwf hcap hsz hb
    refine ⟨([], chans, rb), rfl, ?_, by simp, hwf, rfl, ?_⟩
    · simp only [List.map_nil, List.sum_nil, Nat.add_zero]
      rw [winCnt_neg (show ¬(0 < 256 ∧ 0 < 2432 ∧ 2432 ≤ rb.size) by omega)]
      rfl
    · simp only [List.map_nil, List.sum_nil, Nat.add_zero]
      rw [winRes_neg (show ¬(0 < 256 ∧ 0 < 2432 ∧ 2432 ≤ rb.size) by omega)]
  | cons b bs ih =>
    intro rb chans hwf hcap hsz hb
    have hstep : ∃ rb1, (if b = [] then some rb else rb.push b) = some rb1 ∧
        rb1.Wf ∧ rb1.capacity = rb.capacity ∧ rb1.size = rb.size + b.length := by
      by_cases hbe : b = []
      · refine ⟨rb, by rw [if_pos hbe], hwf, rfl, ?_⟩
        rw [hbe]
        simp
      · have hfit : b.length ≤ rb.available := by
          have := hb b (List.mem_cons_self b bs)
          rw [RingBuffer.available]
          omega
        obtain ⟨rb1, hp, hwf1, -, hcap1, hsize1⟩ := RingBuffer.push_spec rb b hwf hfit
        exact ⟨rb1, by rw [if_neg hbe]; exact hp, hwf1, hcap1, hsize1⟩
    obtain ⟨rb1, hp, hwf1, hcap1, hsize1⟩ := hstep
    obtain ⟨hL1, hL2, hL3, hL4, hL5⟩ := embedLoop_spec emb rb1 chans hwf1
    have hszR : (embedLoop emb rb1 chans).2.2.size < 2432 := by
      rw [hL4]
      exact winRes_lt 2432 256 (by omega) (by omega) _
    obtain ⟨res2, hrun2, hR1, hR2, hR3, hR4, hR5⟩ :=
      ih (embedLoop emb rb1 chans).2.2 (embedLoop emb rb1 chans).2.1 hL2
        (by rw [hL3, hcap1]; exact hcap) hszR
        (fun x hx => hb x (List.mem_cons_of_mem b hx))
    have hadd := win_add 2432 256 (by omega) rb1.size (bs.map List.length).sum
    have harg : rb.size + ((b :: bs).map List.length).sum
        = rb1.size + (bs.map List.length).sum := by
      simp only [List.map_cons, List.sum_cons]
      omega
    refine ⟨((embedLoop emb rb1 chans).1 ++ res2.1, res2.2.1, res2.2.2),
      ?_, ?_, ?_, hR3, ?_, ?_⟩
    · rw [embedRun_cons_some emb b bs rb chans rb1 hp, hrun2]
    · show ((embedLoop emb rb1 chans).1 ++ res2.1).length = _
      rw [List.length_append, hL1, hR1, hL4, harg]
      have := hadd.1
      omega
    · show res2.2.1 = _
      rw [hR2, hL5, List.map_map]
      congr 1
      funext c
      simp
    · show res2.2.2.capacity = rb.capacity
      rw [hR4, hL3, hcap1]
    · show res2.2.2.size = _
      rw [hR5, hL4, harg]
      exact hadd.2

/-- **C4, claim as stated is false**: the mel ring has capacity
`EMBEDDING_WINDOW_SIZE * NUM_MELS * 2 = 4864` and `RingBuffer::push` throws
`std::overflow_error` on a batch exceeding `available()`.  Feeding one
pulled batch of `153 * 32 = 4896` scalars (a mel stream of `m = 153 ≥ 76`
frames) makes the stage throw instead of invoking the model the claimed
`1 + (153 - 76)/8 = 10` times. -/
theorem c4_counterexample :
    ((76 : ℕ) ≤ 153 ∧
      ([List.replicate 4896 (0 : ℚ)].map List.length).sum = 153 * NUM_MELS) ∧
      embedRun (fun _ => []) [List.replicate 4896 (0 : ℚ)]
        (RingBuffer.init (EMBEDDING_WINDOW_SIZE * NUM_MELS * 2))
        (List.replicate 1 []) = none := by
  refine ⟨⟨by omega, ?_⟩, ?_⟩
  · simp only [List.map_cons, List.map_nil, List.length_replicate, List.sum_cons,
      List.sum_nil, NUM_MELS]
    rfl
  · apply embedRun_cons_none
    have hne : ¬(List.replicate 4896 (0 : ℚ) = []) := by
      intro h
      have hlen := congrArg List.length h
      rw [List.length_replicate] at hlen
      exact absurd hlen (by decide)
    rw [if_neg hne]
    have hover : (List.replicate 4896 (0 : ℚ)).length >
        (RingBuffer.init (EMBEDDING_WINDOW_SIZE * NUM_MELS * 2)).available := by
      simp only [List.length_replicate, RingBuffer.available, RingBuffer.init,
        EMBEDDING_WINDOW_SIZE, NUM_MELS]
      omega
    rw [RingBuffer.push, if_pos hover]

/-- **C4 (amended).** For every mel stream of `m` mel frames
(`m * NUM_MELS` scalars) with `m ≥ 76` fed into the embedding stage in
pulled batches of at most `EMBEDDING_WINDOW_SIZE * NUM_MELS = 2432` scalars
each — so that no push overflows the two-window mel ring — the stage throws
nothing and invokes the embedding model, pushing one embedding vector to
every one of the `nDet` detector channels, exactly `1 + (m - 76) / 8`
times, sliding the window by `EMBEDDING_STEP_SIZE = 8` mel frames
(256 scalars) after each invocation. -/
theorem c4_embedding_stage_count (emb : List ℚ → List ℚ) (batches : List (List ℚ))
    (nDet m : ℕ) (hm : EMBEDDING_WINDOW_SIZE ≤ m)
    (hsum : (batches.map List.length).sum = m * NUM_MELS)
    (hbatch : ∀ b ∈ batches, b.length ≤ EMBEDDING_WINDOW_SIZE * NUM_MELS) :
    ∃ res, embedRun emb batches
        (RingBuffer.init (EMBEDDING_WINDOW_SIZE * NUM_MELS * 2))
        (List.replicate nDet []) = some res ∧
      res.1.length = 1 + (m - 76) / 8 ∧
      ∀ c ∈ res.2.1, c.length = 1 + (m - 76) / 8 := by
  simp only [EMBEDDING_WINDOW_SIZE, NUM_MELS] at hm hsum hbatch
  obtain ⟨res, hrun, h1, h2, -, -, -⟩ :=
    embedRun_spec emb batches
      (RingBuffer.init (EMBEDDING_WINDOW_SIZE * NUM_MELS * 2))
      (List.replicate nDet []) (RingBuffer.init_wf _ (by decide))
      (by decide) (by decide)
      (fun b hb => by have := hbatch b hb; omega)
  have hsz0 : (RingBuffer.init (EMBEDDING_WINDOW_SIZE * NUM_MELS * 2)).size = 0 :=
    rfl
  have hcount : res.1.length = 1 + (m - 76) / 8 := by
    rw [h1, hsz0, Nat.zero_add, hsum]
    rw [winCnt_closed 2432 256 (m * 32) (by omega) (by omega) (by omega)]
    omega
  refine ⟨res, hrun, hcount, ?_⟩
  intro c hc
  rw [h2] at hc
  obtain ⟨c0, hc0, rfl⟩ := List.mem_map.mp hc
  have hc0e := List.eq_of_mem_replicate hc0
  subst hc0e
  simpa using hcount

theorem c4_embedding_stage_count_witness :
    (EMBEDDING_WINDOW_SIZE ≤ 76 ∧
      ([List.replicate 2432 (0 : ℚ)].map List.length).sum = 76 * NUM_MELS ∧
      ∀ b ∈ [List.replicate 2432 (0 : ℚ)],
        b.length ≤ EMBEDDING_WINDOW_SIZE * NUM_MELS) ∧
    ∃ res, embedRun (fun _ => []) [List.replicate 2432 (0 : ℚ)]
        (RingBuffer.init (EMBEDDING_WINDOW_SIZE * NUM_MELS * 2))
        (List.replicate 1 []) = some res ∧
      res.1.length = 1 + (76 - 76) / 8 ∧
      ∀ c ∈ res.2.1, c.length = 1 + (76 - 76) / 8 :=
  ⟨⟨by decide,
      by simp only [List.map_cons, List.map_nil, List.length_replicate,
        List.sum_cons, List.sum_nil, NUM_MELS]; rfl,
      by
        intro b hb
        rw [List.mem_singleton] at hb
        subst hb
        rw [List.length_replicate]
        decide⟩,
    c4_embedding_stage_count (fun _ => []) [List.replicate 2432 (0 : ℚ)] 1 76
      (by decide)
      (by simp only [List.map_cons, List.map_nil, List.length_replicate,
        List.sum_cons, List.sum_nil, NUM_MELS]; rfl)
      (by
        intro b hb
        rw [List.mem_singleton] at hb
        subst hb
        rw [List.length_replicate]
        decide)⟩

end OpenWakeWord
